import Mathlib

/-!
Verification of the PandarCoder backend's command-safety validator,
sandbox-profile resolver and task scheduler.

The definitions below are a shallow embedding of
`src/backend/app/services/sandbox.py`, `src/backend/app/core/sandbox.py`,
`src/backend/app/services/runner.py`, `src/backend/app/services/task.py`
and `src/backend/app/models/task.py`.  Python dictionaries are modelled as
insertion-ordered association lists over a JSON-like value type, strings as
Lean `String`, and functions that raise `SandboxError` as `Except String`.
-/

namespace PandarCoder

/-- JSON-like Python value as stored in `Task.task_metadata`.

Numbers are modelled as rationals: the only numeric literals the policy code
handles (cpu quotas `1.0`/`1.5`, memory/disk/timeout integers) are exactly
representable and never computed with. -/
inductive Val where
  | str : String → Val
  | num : Rat → Val
  | bool : Bool → Val
  | none : Val
  | list : List Val → Val
  | dict : List (String × Val) → Val

/-- Python `dict` as an insertion-ordered association list. -/
abbrev AList := List (String × Val)

/-- Lookup a key (`d.get(k)` / `k in d`). -/
def getKey : AList → String → Option Val
  | [], _ => Option.none
  | (k', v) :: rest, k => if k' = k then some v else getKey rest k

/-- `d[k] = v` on a Python dict: replaces in place if the key exists,
otherwise appends (insertion order preserved). -/
def setKey : AList → String → Val → AList
  | [], k, v => [(k, v)]
  | (k', v') :: rest, k, v =>
      if k' = k then (k, v) :: rest else (k', v') :: setKey rest k v

/-- `del d[k]`-style removal (used for the "remaining metadata" of a
submission payload). -/
def removeKey : AList → String → AList
  | [], _ => []
  | (k', v') :: rest, k =>
      if k' = k then removeKey rest k else (k', v') :: removeKey rest k

/-- The keys of a dict, in insertion order. -/
def keysOf (d : AList) : List String := d.map Prod.fst

/-- Python truthiness of a value (`if value:`). -/
def pyTruthy : Val → Bool
  | .str s => s != ""
  | .num q => q != 0
  | .bool b => b
  | .none => false
  | .list [] => false
  | .list (_ :: _) => true
  | .dict [] => false
  | .dict (_ :: _) => true

/-- Python `str()`.  Faithful on strings, booleans and `None`, the only
shapes any claim ever passes through it; numbers use the `Rat`
representation. -/
def pyStr : Val → String
  | .str s => s
  | .bool true => "True"
  | .bool false => "False"
  | .none => "None"
  | .num q => toString q
  | .list _ => "[...]"
  | .dict _ => "{...}"

/-! ### Character/string helpers mirroring Python `str` methods -/

/-- Python `str.isspace` characters relevant to `strip`/`split`. -/
def isPySpace (c : Char) : Bool :=
  c = ' ' ∨ c = '\t' ∨ c = '\n' ∨ c = '\r' ∨ c = Char.ofNat 11 ∨ c = Char.ofNat 12

/-- Python `str.strip()` on a char list. -/
def stripChars (s : List Char) : List Char :=
  ((s.dropWhile isPySpace).reverse.dropWhile isPySpace).reverse

/-- Python `str.lower()` (ASCII). -/
def lowerChars (s : List Char) : List Char := s.map Char.toLower

/-- Python `str.split()` with no argument: split on whitespace runs,
dropping empty fields. -/
def pySplitGo (cur : List Char) : List Char → List (List Char)
  | [] => if cur = [] then [] else [cur.reverse]
  | c :: cs =>
      if isPySpace c then
        if cur = [] then pySplitGo [] cs else cur.reverse :: pySplitGo [] cs
      else pySplitGo (c :: cur) cs

def pySplit (s : List Char) : List (List Char) := pySplitGo [] s

/-- `str.strip()` on a `String`. -/
def stripStr (s : String) : String := String.mk (stripChars s.toList)

/-- `str.lower()` on a `String`. -/
def lowerStr (s : String) : String := String.mk (lowerChars s.toList)

/-! ### A tiny matcher for the fixed regular expressions of the source

Each Python pattern used by `core/sandbox.py` and `services/sandbox.py` is
compiled by hand into a scanner over `List Char`.  `\b` is a word boundary
(word characters being `[A-Za-z0-9_]`), `\s` the whitespace class. -/

def isWordChar (c : Char) : Bool := c.isAlpha || c.isDigit || c = '_'

/-- Case-insensitive character comparison (ASCII, as `re.IGNORECASE`). -/
def ciEq (a b : Char) : Bool := a.toLower = b.toLower

/-- Match a literal at the head of the input, returning the remainder.
`ci` selects case-insensitive matching. -/
def stripLit (ci : Bool) : List Char → List Char → Option (List Char)
  | [], s => some s
  | _ :: _, [] => Option.none
  | p :: ps, c :: cs =>
      if (if ci then ciEq p c else p = c) then stripLit ci ps cs else Option.none

/-- `\s+`: at least one whitespace char, consumed greedily. -/
def spaces1 : List Char → Option (List Char)
  | c :: cs => if isPySpace c then some (cs.dropWhile isPySpace) else Option.none
  | [] => Option.none

/-- `\s*`: any whitespace, consumed greedily. -/
def spaces0 (s : List Char) : List Char := s.dropWhile isPySpace

/-- A word boundary to the left of the current position, given the previous
character (`Option.none` at the start of the string). -/
def atBoundaryBefore : Option Char → Bool
  | Option.none => true
  | some c => !isWordChar c

/-- A word boundary immediately after a word character: end of input or a
non-word character. -/
def boundaryAfterWordChar : List Char → Bool
  | [] => true
  | c :: _ => !isWordChar c

/-- `re.search`: try the position matcher at every position, tracking the
previous character for `\b`. -/
def searchFrom (p : Option Char → List Char → Bool) : Option Char → List Char → Bool
  | prev, [] => p prev []
  | prev, c :: cs => p prev (c :: cs) || searchFrom p (some c) cs

def search (p : Option Char → List Char → Bool) (s : List Char) : Bool :=
  searchFrom p Option.none s

/-- Matcher for `\bWORD\b` (case-insensitive), e.g. `\bsudo\b`. -/
def matchWordAt (w : String) (prev : Option Char) (s : List Char) : Bool :=
  atBoundaryBefore prev &&
    (match stripLit true w.toList s with
     | some rest => boundaryAfterWordChar rest
     | Option.none => false)

def hasWord (w : String) (s : List Char) : Bool := search (matchWordAt w) s

/-- Matcher for `\bHEAD\s+TAIL` with an optional trailing `\b`. -/
def matchHeadSpTailAt (head tail : String) (tailBoundary : Bool) (prev : Option Char)
    (s : List Char) : Bool :=
  atBoundaryBefore prev &&
    (match stripLit true head.toList s with
     | some r1 =>
         match spaces1 r1 with
         | some r2 =>
             match stripLit true tail.toList r2 with
             | some r3 => !tailBoundary || boundaryAfterWordChar r3
             | Option.none => false
         | Option.none => false
     | Option.none => false)

def hasHeadSpTail (head tail : String) (tailBoundary : Bool) (s : List Char) : Bool :=
  search (matchHeadSpTailAt head tail tailBoundary) s

/-- Substring containment (case-sensitive), i.e. `frag in text`. -/
def containsSub (w : String) : List Char → Bool
  | [] => w.toList = []
  | c :: cs => (stripLit false w.toList (c :: cs)).isSome || containsSub w cs

/-- First occurrence of a case-insensitive literal; returns the remainder
after the match. -/
def findLitCI (w : String) : List Char → Option (List Char)
  | [] => stripLit true w.toList []
  | c :: cs =>
      match stripLit true w.toList (c :: cs) with
      | some r => some r
      | Option.none => findLitCI w cs

/-- Remainder after the first occurrence of a single character. -/
def findChar (ch : Char) : List Char → Option (List Char)
  | [] => Option.none
  | c :: cs => if c = ch then some cs else findChar ch cs

/-- `sh\b` somewhere in the input (no boundary before, as in the source's
`curl…sh\b` pattern), case-insensitive. -/
def hasShEnd : List Char → Bool
  | [] => false
  | c :: cs =>
      (match stripLit true "sh".toList (c :: cs) with
       | some r => boundaryAfterWordChar r
       | Option.none => false) || hasShEnd cs

/-! ### `app/core/sandbox.py` -/

/-- The settings attributes read by `core/sandbox.py` via `getattr` with
defaults (no such fields exist on `app.core.config.Settings`, so the
defaults below are what a stock deployment uses). -/
structure Settings where
  SANDBOX_ALLOWED_ROOT_CMDS : Option (List String) := Option.none
  SANDBOX_ENFORCED : Bool := true
  APPROVALS_ENABLED : Bool := true

def DEFAULT_ALLOWED_ROOT_CMDS : List String := ["codex", "claude", "gemini"]

/-- `_get_allowed_roots`: a configured non-empty list is stripped and
empty entries dropped; otherwise the default triple. -/
def getAllowedRoots (st : Settings) : List String :=
  match st.SANDBOX_ALLOWED_ROOT_CMDS with
  | some l =>
      if l = [] then DEFAULT_ALLOWED_ROOT_CMDS
      else (l.map stripStr).filter (fun x => x != "")
  | Option.none => DEFAULT_ALLOWED_ROOT_CMDS

def backtickChar : Char := Char.ofNat 96

/-- First occurrence of a case-sensitive literal; remainder after it. -/
def findLitCS (w : String) : List Char → Option (List Char)
  | [] => stripLit false w.toList []
  | c :: cs =>
      match stripLit false w.toList (c :: cs) with
      | some r => some r
      | Option.none => findLitCS w cs

/-- Pattern `` `[\s\S]*?` ``: an opening and a (possibly immediately
following) closing backtick. -/
def hasBacktickPair (s : List Char) : Bool :=
  match findChar backtickChar s with
  | some r => (findChar backtickChar r).isSome
  | Option.none => false

/-- Pattern `\$\([\s\S]*?\)`: a literal `$(` with a `)` somewhere after. -/
def hasDollarParen (s : List Char) : Bool :=
  match findLitCS "$(" s with
  | some r => (findChar ')' r).isSome
  | Option.none => false

/-- `has_shell_operators`: any of the `SHELL_OPERATOR_PATTERNS` matches.
`>{1,2}` matches exactly when a `>` occurs, and `2>\&1` is a plain
substring; both reduce to the containment checks below. -/
def has_shell_operators (s : List Char) : Bool :=
  containsSub "&&" s || containsSub "||" s || containsSub ";" s || containsSub "|" s ||
    containsSub ">" s || containsSub "<" s || containsSub "2>&1" s ||
    hasBacktickPair s || hasDollarParen s

/-- `curl[\s\S]*\|[\s\S]*sh\b` (case-insensitive). -/
def hasCurlPipeSh (s : List Char) : Bool :=
  match findLitCI "curl" s with
  | some r1 =>
      match findChar '|' r1 with
      | some r2 => hasShEnd r2
      | Option.none => false
  | Option.none => false

/-- `matches_denylist`: first matching `DENYLIST_PATTERNS` entry (patterns
tried in source order, `re.IGNORECASE`), returning the pattern text. -/
def matches_denylist (s : List Char) : Option String :=
  if hasWord "sudo" s then some "\\bsudo\\b"
  else if hasWord "su" s then some "\\bsu\\b"
  else if hasHeadSpTail "chmod" "777" true s then some "\\bchmod\\s+777\\b"
  else if hasHeadSpTail "rm" "-rf" true s then some "\\brm\\s+-rf\\b"
  else if hasHeadSpTail "dd" "if=" false s then some "\\bdd\\s+if="
  else if hasWord "mkfs" s then some "\\bmkfs\\b"
  else if hasWord "fdisk" s then some "\\bfdisk\\b"
  else if hasWord "mount" s || hasWord "umount" s then some "\\bmount\\b|\\bumount\\b"
  else if hasWord "chown" s then some "\\bchown\\b"
  else if hasHeadSpTail "kill" "-9" true s then some "\\bkill\\s+-9\\b"
  else if hasWord "shutdown" s || hasWord "reboot" s then some "\\bshutdown\\b|\\breboot\\b"
  else if hasWord "scp" s || hasWord "ssh" s then some "\\bscp\\b|\\bssh\\b"
  else if hasCurlPipeSh s then some "curl[\\s\\S]*\\|[\\s\\S]*sh\\b"
  else if hasWord "docker" s || hasWord "kubectl" s then some "\\bdocker\\b|\\bkubectl\\b"
  else Option.none

/-- `^[A-Za-z_][A-Za-z0-9_]*=` matched against a whole token. -/
def isEnvAssignGo : List Char → Bool
  | [] => false
  | c :: cs => if c = '=' then true else if isWordChar c then isEnvAssignGo cs else false

def isEnvAssign : List Char → Bool
  | [] => false
  | c :: cs => (c.isAlpha || c = '_') && isEnvAssignGo cs

/-- `extract_root`: strip, drop leading `FOO=bar` env assignments, first
remaining whitespace-delimited token (or `""`). -/
def extract_root (command : String) : String :=
  String.mk (((pySplit (stripChars command.toList)).dropWhile isEnvAssign).headD [])

/-- `is_command_allowed`: static allow-list validator, `(allowed, reason)`. -/
def is_command_allowed (st : Settings) (command : String) : Bool × Option String :=
  let cmd := stripChars command.toList
  if cmd = [] then (false, some "empty command")
  else if has_shell_operators cmd then
    (false, some "shell operators (chaining/redirection) are not allowed")
  else
    match matches_denylist cmd with
    | some m => (false, some ("command contains denied pattern: " ++ m))
    | Option.none =>
        let root := lowerStr (extract_root (String.mk cmd))
        if root ∈ getAllowedRoots st then (true, Option.none)
        else (false, some ("root command '" ++ root ++ "' is not allowed"))

/-- Python `x or default` on an optional/empty reason string. -/
def orDefault (reason : Option String) (dflt : String) : String :=
  match reason with
  | some s => if s = "" then dflt else s
  | Option.none => dflt

/-- `str(metadata.get("sandbox", {}).get("mode", "strict")).lower()`.

A metadata value whose `"sandbox"` entry is present, truthy and not a dict
would make the Python chain raise `AttributeError`; the theorems using this
hypothesise a dict-shaped (or absent) sandbox block, on which the embedding
is faithful. -/
def taskSandboxMode (md : AList) : String :=
  match getKey md "sandbox" with
  | some (.dict d) =>
      match getKey d "mode" with
      | some v => lowerStr (pyStr v)
      | Option.none => "strict"
  | some _ => "strict"
  | Option.none => "strict"

/-- `str(metadata.get("approval_policy", "auto")).lower()`. -/
def taskApproval (md : AList) : String :=
  match getKey md "approval_policy" with
  | some v => lowerStr (pyStr v)
  | Option.none => "auto"

/-- `evaluate_runtime_policy(command, metadata) -> (decision, reason)`;
this function never raises. -/
def evaluate_runtime_policy (st : Settings) (command : String)
    (metadata : Option AList) : String × Option String :=
  let md := metadata.getD []
  let sandboxMode : String := taskSandboxMode md
  let approval : String := taskApproval md
  match is_command_allowed st command with
  | (true, _) => ("allow", Option.none)
  | (false, reason) =>
      if !st.APPROVALS_ENABLED then ("block", some (orDefault reason "blocked by sandbox"))
      else if st.SANDBOX_ENFORCED || sandboxMode = "strict" then
        if approval = "manual" || approval = "auto_with_gates" then
          ("gate", some (orDefault reason "blocked by sandbox"))
        else ("block", some (orDefault reason "blocked by sandbox"))
      else ("allow", Option.none)

/-! ### `app/services/sandbox.py` -/

/-- Strict lexicographic order on char lists by code point — the order
Python's `sorted` uses on strings. -/
def lexLt : List Char → List Char → Bool
  | [], [] => false
  | [], _ :: _ => true
  | _ :: _, [] => false
  | a :: as, b :: bs => if a < b then true else if b < a then false else lexLt as bs

def strLt (s t : String) : Bool := lexLt s.toList t.toList

/-- Insert into a strictly sorted list, dropping duplicates. -/
def insSorted (s : String) : List String → List String
  | [] => [s]
  | t :: ts =>
      if strLt s t then s :: t :: ts else if s = t then t :: ts else t :: insSorted s ts

/-- `sorted(set(l))` on strings: the lexicographically sorted list of the
distinct elements. -/
def sortDedup (l : List String) : List String := l.foldr insSorted []

structure SandboxLimitsL where
  cpu : Rat
  memory_mb : Int
  disk_mb : Int
  timeout_seconds : Int
  allow_network : Bool := false
  working_dir : String := "/app/workspace"

/-- `SandboxLimits.to_metadata`. -/
def SandboxLimitsL.to_metadata (l : SandboxLimitsL) : AList :=
  [("limits", .dict [("cpu", .num l.cpu), ("memory_mb", .num l.memory_mb),
      ("disk_mb", .num l.disk_mb), ("timeout_seconds", .num l.timeout_seconds)]),
   ("network", .dict [("allow", .bool l.allow_network)]),
   ("working_dir", .str l.working_dir)]

/-- `SandboxProfile`; the `frozenset` of capabilities is carried as a list,
`to_metadata` sorting and deduplicating it exactly as `sorted(frozenset)`. -/
structure SandboxProfileL where
  name : String
  limits : SandboxLimitsL
  capabilities : List String := []

/-- `SandboxProfile.to_metadata`: keys in insertion order
`enabled, profile, limits, network, working_dir, capabilities`. -/
def SandboxProfileL.to_metadata (p : SandboxProfileL) : AList :=
  [("enabled", Val.bool true), ("profile", Val.str p.name)] ++ p.limits.to_metadata
    ++ [("capabilities", Val.list ((sortDedup p.capabilities).map Val.str))]

def codexProfile : SandboxProfileL :=
  { name := "codex-standard"
    limits := { cpu := 1, memory_mb := 512, disk_mb := 1024, timeout_seconds := 1800 }
    capabilities := ["CAP_CHOWN", "CAP_DAC_OVERRIDE"] }

def claudeProfile : SandboxProfileL :=
  { name := "claude-standard"
    limits := { cpu := 3 / 2, memory_mb := 768, disk_mb := 1536, timeout_seconds := 2400 }
    capabilities := ["CAP_CHOWN", "CAP_DAC_OVERRIDE", "CAP_SETUID"] }

/-- `_DEFAULT_PROFILES` lookup (`self._profiles.get(agent)` on a default
constructed `SandboxManager`). -/
def profileFor : String → Option SandboxProfileL
  | "codex" => some codexProfile
  | "claude" => some claudeProfile
  | _ => Option.none

def SUPPORTED_AGENTS : List String := ["codex", "claude"]

def SANDBOX_MANDATORY_MSG : String := "Sandbox execution is mandatory for codex/claude agents"

def isFalseVal : Val → Bool
  | .bool false => true
  | _ => false

def isNoneVal : Val → Bool
  | .none => true
  | _ => false

/-- Elements contributed by a `capabilities` override: `str(item)` over a
list, or `str(value)` for a single non-list value. -/
def capItems : Val → List String
  | .list l => l.map pyStr
  | v => [pyStr v]

/-- `set(merged.get("capabilities", []))` — the existing capability strings.
Python would iterate a non-list value element-wise (e.g. a string into its
characters); that shape never arises from profile bases or merge outputs
and no theorem exercises it. -/
def getCapsStrs (merged : AList) : List String :=
  match getKey merged "capabilities" with
  | some (.list l) => l.map pyStr
  | _ => []

mutual

/-- Overrides whose mapping-valued entries always land on an existing dict
of the base (recursively): exactly the overrides for which every nested
mapping goes through the dict-merge branch rather than being inserted
verbatim.  Python dicts of this shape are what profile refinements look
like; outside it, merging is not idempotent. -/
def compatList (base : AList) : AList → Bool
  | [] => true
  | (k, v) :: rest => compatHead (getKey base k) v && compatList base rest

/-- Compatibility of one override value with the base entry under its key. -/
def compatHead (bv : Option Val) : Val → Bool
  | .dict o =>
      match bv with
      | some (.dict d) => compatList d o
      | _ => false
  | _ => true

end

mutual

/-- Keys are distinct at every dict level — the shape of data coming from
real Python dicts. -/
def nodupKeysDeep : AList → Bool
  | [] => true
  | (k, v) :: rest => !((keysOf rest).contains k) && nodupValDeep v && nodupKeysDeep rest

def nodupValDeep : Val → Bool
  | .dict o => nodupKeysDeep o
  | _ => true

end

mutual

/-- `SandboxManager._recursive_merge`, processing override pairs in order;
`Except.error` models `raise SandboxError`.  The descent into a
mapping-valued override goes through `mergeDictVal`, written mutually so
that Lean accepts the nested structural recursion. -/
def recursive_merge : AList → AList → Except String AList
  | merged, [] => Except.ok merged
  | merged, (k, v) :: rest =>
      if k = "enabled" && isFalseVal v then Except.error SANDBOX_MANDATORY_MSG
      else
        match getKey merged k, v with
        | some (.dict d), .dict _ =>
            match mergeDictVal d v with
            | Except.error e => Except.error e
            | Except.ok sub => recursive_merge (setKey merged k (.dict sub)) rest
        | _, _ =>
            if k = "capabilities" && !isNoneVal v then
              recursive_merge (setKey merged "capabilities"
                (Val.list ((sortDedup (getCapsStrs merged ++ capItems v)).map Val.str))) rest
            else recursive_merge (setKey merged k v) rest

/-- `_recursive_merge(merged[key], value)` on a mapping-valued override;
only ever applied to `.dict` values. -/
def mergeDictVal (d : AList) : Val → Except String AList
  | .dict o => recursive_merge d o
  | _ => Except.ok d

end

/-- `SandboxManager._merge_metadata`.  A truthy non-dict override would make
Python fail with `AttributeError` on `.items()`; every theorem hypothesises
dict-shaped overrides, on which this embedding is faithful. -/
def merge_metadata (profile : Option SandboxProfileL) (overrides : Option Val) :
    Except String AList :=
  let base : AList :=
    match profile with
    | some p => p.to_metadata
    | Option.none => [("enabled", Val.bool true)]
  match overrides with
  | Option.none => Except.ok base
  | some ov =>
      if pyTruthy ov = false then Except.ok base
      else
        match ov with
        | .dict o => recursive_merge base o
        | _ => Except.ok base

def DANGEROUS_SUBSTRINGS : List String :=
  ["rm -rf", "sudo", "&&", ";", "|", "curl http", "wget http", "nc ", "ssh "]

/-- `\brm\s+-[rfRF]+` (case-sensitive). -/
def matchRmFlagsAt (prev : Option Char) (s : List Char) : Bool :=
  atBoundaryBefore prev &&
    (match stripLit false "rm".toList s with
     | some r1 =>
         match spaces1 r1 with
         | some r2 =>
             match r2 with
             | '-' :: c :: _ => c = 'r' || c = 'f' || c = 'R' || c = 'F'
             | _ => false
         | Option.none => false
     | Option.none => false)

/-- `` `[^`]+` ``: an opening backtick, at least one non-backtick, then a
closing backtick. -/
def svcBacktickPattern : List Char → Bool
  | [] => false
  | c :: cs =>
      if c = backtickChar then
        match cs with
        | [] => false
        | d :: ds =>
            if d = backtickChar then svcBacktickPattern (d :: ds)
            else (findChar backtickChar ds).isSome
      else svcBacktickPattern cs

/-- `>\s*/dev/(null|zero|tty)`. -/
def matchDevRedirectAt (_prev : Option Char) (s : List Char) : Bool :=
  match s with
  | '>' :: rest =>
      match stripLit false "/dev/".toList (spaces0 rest) with
      | some r2 =>
          (stripLit false "null".toList r2).isSome ||
            (stripLit false "zero".toList r2).isSome ||
            (stripLit false "tty".toList r2).isSome
      | Option.none => false
  | _ => false

/-- `_DANGEROUS_PATTERNS`; the `\$\([^)]*\)` pattern matches exactly when a
`$(` is followed by some `)`, which is `hasDollarParen`. -/
def anyDangerousPattern (s : List Char) : Bool :=
  search matchRmFlagsAt s || svcBacktickPattern s || hasDollarParen s ||
    search matchDevRedirectAt s

/-- `SandboxManager._validate_command`. -/
def validate_command (command : String) : Except String Unit :=
  let stripped := stripChars command.toList
  if stripped = [] then Except.error "Command cannot be empty"
  else
    let lowered := lowerChars stripped
    match DANGEROUS_SUBSTRINGS.find? (fun f => containsSub f lowered) with
    | some frag =>
        Except.error ("Command contains disallowed fragment: '" ++ stripStr frag ++ "'.")
    | Option.none =>
        if anyDangerousPattern stripped then
          Except.error "Command contains potentially unsafe pattern"
        else Except.ok ()

/-- Agent inference from the command's first whitespace-delimited token. -/
def inferAgentFromCommand (command : String) : Option String :=
  let cmd := lowerChars (stripChars command.toList)
  if cmd = [] then Option.none
  else
    match pySplit cmd with
    | [] => Option.none
    | t :: _ =>
        if String.mk t ∈ SUPPORTED_AGENTS then some (String.mk t) else Option.none

/-- `SandboxManager._normalise_agent`. -/
def normalise_agent (agentVal : Option Val) (command : String) : Option String :=
  match agentVal with
  | some v =>
      if pyTruthy v then
        let t := lowerStr (stripStr (pyStr v))
        if t = "" then Option.none else some t
      else inferAgentFromCommand command
  | Option.none => inferAgentFromCommand command

/-- The `elif metadata_copy.get("sandbox"):` branch: run a truthy custom
sandbox block through the merge against the minimal base. -/
def mergeCustomSandbox (md : AList) : Except String AList :=
  if pyTruthy ((getKey md "sandbox").getD Val.none) then
    match merge_metadata Option.none (getKey md "sandbox") with
    | Except.error e => Except.error e
    | Except.ok merged => Except.ok (setKey md "sandbox" (Val.dict merged))
  else Except.ok md

/-- `SandboxManager.ensure_sandbox_metadata` (default profiles). -/
def ensure_sandbox_metadata (command : String) (metadata : Option AList) :
    Except String AList :=
  match validate_command command with
  | Except.error e => Except.error e
  | Except.ok _ =>
      let md0 : AList := metadata.getD []
      let agentOpt := normalise_agent (getKey md0 "agent") command
      let md : AList :=
        match agentOpt with
        | some a => setKey md0 "agent" (Val.str a)
        | Option.none => md0
      match agentOpt with
      | some a =>
          if a ∈ SUPPORTED_AGENTS then
            let overrides := getKey md "sandbox"
            let explicitDisable : Bool :=
              match overrides with
              | some (.dict o) =>
                  match getKey o "enabled" with
                  | some (.bool false) => true
                  | _ => false
              | _ => false
            if explicitDisable then Except.error SANDBOX_MANDATORY_MSG
            else
              match profileFor a with
              | Option.none =>
                  Except.error ("No sandbox profile configured for agent '" ++ a ++ "'")
              | some p =>
                  match merge_metadata (some p) overrides with
                  | Except.error e => Except.error e
                  | Except.ok merged => Except.ok (setKey md "sandbox" (Val.dict merged))
          else mergeCustomSandbox md
      | Option.none => mergeCustomSandbox md

/-- `SandboxManager.should_use_sandbox`. -/
def should_use_sandbox (metadata : Option AList) (command : String) : Bool :=
  match normalise_agent
      (match metadata with
       | some m => getKey m "agent"
       | Option.none => Option.none) command with
  | some a => SUPPORTED_AGENTS.contains a
  | Option.none => false

/-! ### `app/models/task.py` and `app/services/task.py` -/

inductive TaskStatus where
  | pending
  | running
  | completed
  | failed
  | cancelled
  | waiting_confirmation
deriving DecidableEq, Repr

inductive TaskPriority where
  | low
  | medium
  | high
  | urgent
deriving DecidableEq, Repr

/-- `Enum(TaskPriority)` is persisted by member name into a native MySQL
`ENUM` (the configured backend is `mysql+aiomysql`), which collates by
declaration index; `ORDER BY priority DESC` therefore ranks
urgent > high > medium > low. -/
def TaskPriority.idx : TaskPriority → Nat
  | .low => 0
  | .medium => 1
  | .high => 2
  | .urgent => 3

/-- The task fields read or written by `TaskService.execute_task_action`,
with instants as abstract `Nat` timestamps. -/
structure MTask where
  status : TaskStatus
  started_at : Option Nat := Option.none
  completed_at : Option Nat := Option.none
  output : Option String := Option.none
  error : Option String := Option.none
  exit_code : Option Int := Option.none
  progress : Option Nat := Option.none
  duration : Option Nat := Option.none
  updated_at : Option Nat := Option.none
deriving DecidableEq, Repr

/-- `TaskService.execute_task_action`: `Except.error` models raising
`HTTPException` before anything is committed (the task is unchanged), and
`now` stands for `datetime.utcnow()`.  The final catch-all mirrors the
fall-through for an unrecognised action string (the API schema restricts
actions to the four below). -/
def execute_task_action (t : MTask) (action : String) (reason : Option String)
    (now : Nat) : Except String MTask :=
  if action = "start" then
    if t.status = .pending ∨ t.status = .failed then
      Except.ok { t with status := .running, started_at := some now, updated_at := some now }
    else Except.error "只有待执行或失败的任务可以启动"
  else if action = "cancel" then
    if t.status = .pending ∨ t.status = .running then
      Except.ok
        { t with
          status := .cancelled
          completed_at := some now
          error :=
            match reason with
            | some r => if r != "" then some ("任务被取消: " ++ r) else t.error
            | Option.none => t.error
          updated_at := some now }
    else Except.error "只有待执行或运行中的任务可以取消"
  else if action = "confirm" then
    if t.status = .waiting_confirmation then
      Except.ok { t with status := .running, updated_at := some now }
    else Except.error "只有等待确认的任务可以确认"
  else if action = "retry" then
    if t.status = .failed ∨ t.status = .cancelled then
      Except.ok
        { t with
          status := .pending
          started_at := Option.none
          completed_at := Option.none
          output := Option.none
          error := Option.none
          exit_code := Option.none
          progress := Option.none
          updated_at := some now }
    else Except.error "只有失败或取消的任务可以重试"
  else Except.ok { t with updated_at := some now }

/-- A concrete cancelled task carrying full execution telemetry, used to
instantiate the retry theorems. -/
def retryWitnessTask : MTask :=
  { status := TaskStatus.cancelled
    started_at := some 1
    completed_at := some 2
    output := some "o"
    error := some "e"
    exit_code := some 1
    progress := some 40
    duration := some 9 }

/-! ### `TaskRunner._fetch_next_task` (`app/services/runner.py`) -/

/-- The task columns the selection query reads. -/
structure STask where
  id : Nat
  status : TaskStatus
  priority : TaskPriority
  created_at : Nat
  started_at : Option Nat := Option.none
  scheduled_at : Option Nat := Option.none
deriving DecidableEq, Repr

/-- The query's WHERE clause: status PENDING, or RUNNING with no
`started_at`; and `scheduled_at` unset or elapsed. -/
def eligibleTask (now : Nat) (t : STask) : Bool :=
  (t.status == TaskStatus.pending ||
      (t.status == TaskStatus.running && t.started_at == Option.none)) &&
    (match t.scheduled_at with
     | Option.none => true
     | some s => decide (s ≤ now))

/-- `ORDER BY priority DESC, created_at ASC`: `a` sorts strictly before
`b`. -/
def ordBefore (a b : STask) : Prop :=
  b.priority.idx < a.priority.idx ∨
    (a.priority.idx = b.priority.idx ∧ a.created_at < b.created_at)

instance (a b : STask) : Decidable (ordBefore a b) := by
  unfold ordBefore; infer_instance

/-- Running minimum under `ordBefore` (an earlier list element wins ties,
matching a stable sort's first row). -/
def pickBest (b : STask) : List STask → STask
  | [] => b
  | t :: ts => pickBest (if ordBefore t b then t else b) ts

/-- `_fetch_next_task`: the WHERE filter, the ORDER BY, and `LIMIT 1`. -/
def fetch_next_task (now : Nat) (tasks : List STask) : Option STask :=
  match tasks.filter (eligibleTask now) with
  | [] => Option.none
  | t :: ts => some (pickBest t ts)

/-- A concrete task set instantiating the scheduler-selection theorem:
two urgent PENDING tasks of different ages, an older HIGH task and an
ineligible RUNNING task that already started. -/
def schedulerWitnessTasks : List STask :=
  [{ id := 1
     status := TaskStatus.pending
     priority := TaskPriority.high
     created_at := 1 },
   { id := 2
     status := TaskStatus.pending
     priority := TaskPriority.urgent
     created_at := 5 },
   { id := 3
     status := TaskStatus.pending
     priority := TaskPriority.urgent
     created_at := 3 },
   { id := 4
     status := TaskStatus.running
     priority := TaskPriority.urgent
     created_at := 0
     started_at := some 2 }]

/-! ### `SandboxManager.build_submission` -/

/-- Modelled from the spec: `SandboxManager.build_submission` and the
`SandboxSubmission` value object are invoked by
`TaskRunner._submit_to_sandbox` and by
`tests/services/test_sandbox_manager.py`, but their definitions are absent
from the sources.  Per spec §3/§4.3/§6 the submission bundles agent,
original command, the resolved sandbox metadata and the remaining task
metadata. -/
structure SandboxSubmission where
  agent : String
  command : String
  sandbox : AList
  metadata : AList

/-- Modelled from the spec: `submission.to_payload()` produces a plain
mapping with keys `agent`, `command`, `sandbox` (profile name, limits,
network flag, working_dir, capabilities), `metadata` (pass-through of
remaining caller metadata). -/
def SandboxSubmission.to_payload (s : SandboxSubmission) : AList :=
  [("agent", Val.str s.agent), ("command", Val.str s.command),
   ("sandbox", Val.dict s.sandbox), ("metadata", Val.dict s.metadata)]

/-- Modelled from the spec: `build_submission(command, metadata)` requires
the agent (resolved by the same rule as `ensure_sandbox_metadata`) to be
one of the mandatory agents (else fails with `SandboxError`), resolves the
sandbox metadata via the same resolve+merge logic, and passes the remaining
caller metadata (minus the consumed `agent` and `sandbox` keys) through. -/
def build_submission (command : String) (metadata : Option AList) :
    Except String SandboxSubmission :=
  let md := metadata.getD []
  match normalise_agent (getKey md "agent") command with
  | some a =>
      if a ∈ SUPPORTED_AGENTS then
        match profileFor a with
        | some p =>
            match merge_metadata (some p) (getKey md "sandbox") with
            | Except.error e => Except.error e
            | Except.ok merged =>
                Except.ok ⟨a, command, merged, removeKey (removeKey md "agent") "sandbox"⟩
        | Option.none =>
            Except.error ("No sandbox profile configured for agent '" ++ a ++ "'")
      else Except.error "Sandbox submission requires a codex/claude agent"
  | Option.none => Except.error "Sandbox submission requires a codex/claude agent"

/-- The sortedness relation carried by `sortDedup` results. -/
def SLt (a b : String) : Prop := strLt a b = true

/-- The `"enabled"` entry of the `"sandbox"` block of a metadata dict. -/
def sandboxEnabledOf (r : AList) : Option Val :=
  match getKey r "sandbox" with
  | some (.dict s) => getKey s "enabled"
  | _ => Option.none

/-- The shapes of the `"sandbox"` entry on which the embedding is faithful:
absent, a dict, or a falsy value.  (A truthy non-dict `"sandbox"` value
makes the Python code fail with `AttributeError`/`TypeError` rather than
`SandboxError`, a shape no persisted task produces.) -/
def sandboxShaped (md : AList) : Bool :=
  match getKey md "sandbox" with
  | some (.dict _) => true
  | some v => !pyTruthy v
  | Option.none => true

/-- Shapes of the `"sandbox"` entry on which
`metadata.get("sandbox", {}).get("mode", "strict")` does not crash. -/
def sandboxDictOrAbsent (md : AList) : Bool :=
  match getKey md "sandbox" with
  | some (.dict _) => true
  | Option.none => true
  | some _ => false

/-- One capability-list override applied through the real merge. -/
def mergeCapsOverride (m : AList) (A : List String) : Except String AList :=
  recursive_merge m [("capabilities", Val.list (A.map Val.str))]

/-- The base metadata `_merge_metadata` starts from: the agent profile when
one resolved, else the minimal mandatory block. -/
def mergeBase : Option SandboxProfileL → AList
  | some p => p.to_metadata
  | Option.none => [("enabled", Val.bool true)]

/-- An override introducing a fresh nested dict: its inner capability list
is stored verbatim on the first merge and re-sorted on the second. -/
def c8badOv : AList :=
  [("extra", Val.dict [("capabilities", Val.list [Val.str "B", Val.str "A"])])]

/-- The result of merging `c8badOv` into the codex base once. -/
def c8onceMerged : AList :=
  codexProfile.to_metadata ++
    [("extra", Val.dict [("capabilities", Val.list [Val.str "B", Val.str "A"])])]

/-- The capability strings stored under the nested `"extra"` dict of a merge
result — the observation separating the first merge from the second. -/
def capsInsideExtra : Except String AList → Option (List String)
  | Except.ok m =>
      match getKey m "extra" with
      | some (Val.dict d) =>
          match getKey d "capabilities" with
          | some (Val.list l) => some (l.map pyStr)
          | _ => Option.none
      | _ => Option.none
  | Except.error _ => Option.none

/-- A deep-compatible, deep-duplicate-free override for the codex base. -/
def c8goodOv : AList :=
  [("limits", Val.dict [("memory_mb", Val.num 1024)]),
   ("capabilities", Val.list [Val.str "CAP_SYS_PTRACE"])]

/-! ### Order lemmas for `lexLt`/`strLt` and the sorted-dedup machinery -/

theorem charEq_of_not_lt {x y : Char} (h1 : ¬x < y) (h2 : ¬y < x) : x = y :=
  le_antisymm (le_of_not_lt h2) (le_of_not_lt h1)

theorem lexLt_irrefl : ∀ l : List Char, lexLt l l = false := by
  intro l
  induction l with
  | nil => rfl
  | cons a as ih => simp [lexLt, lt_irrefl, ih]

theorem lexLt_trans :
    ∀ {a b c : List Char}, lexLt a b = true → lexLt b c = true → lexLt a c = true := by
  intro a
  induction a with
  | nil =>
      intro b c hab hbc
      cases b with
      | nil => simp [lexLt] at hab
      | cons y bs =>
          cases c with
          | nil => simp [lexLt] at hbc
          | cons z cs => rfl
  | cons x as ih =>
      intro b c hab hbc
      cases b with
      | nil => simp [lexLt] at hab
      | cons y bs =>
          cases c with
          | nil => simp [lexLt] at hbc
          | cons z cs =>
              simp only [lexLt] at hab hbc ⊢
              by_cases hxy : x < y
              · by_cases hyz : y < z
                · simp [lt_trans hxy hyz]
                · by_cases hzy : z < y
                  · simp only [if_neg hyz, if_pos hzy] at hbc
                    cases hbc
                  · have : y = z := charEq_of_not_lt hyz hzy
                    subst this
                    simp [hxy]
              · by_cases hyx : y < x
                · simp only [if_neg hxy, if_pos hyx] at hab
                  cases hab
                · have hxyeq : x = y := charEq_of_not_lt hxy hyx
                  subst hxyeq
                  simp only [if_neg hxy, if_neg hyx] at hab
                  by_cases hxz : x < z
                  · simp [hxz]
                  · by_cases hzx : z < x
                    · simp only [if_neg hxz, if_pos hzx] at hbc
                      cases hbc
                    · have : x = z := charEq_of_not_lt hxz hzx
                      subst this
                      simp only [if_neg hxz, if_neg (lt_irrefl x)] at hbc ⊢
                      exact ih hab hbc

theorem lexLt_eq_of_not :
    ∀ {a b : List Char}, lexLt a b = false → lexLt b a = false → a = b := by
  intro a
  induction a with
  | nil =>
      intro b hab _
      cases b with
      | nil => rfl
      | cons y bs => simp [lexLt] at hab
  | cons x as ih =>
      intro b hab hba
      cases b with
      | nil => simp [lexLt] at hba
      | cons y bs =>
          simp only [lexLt] at hab hba
          by_cases hxy : x < y
          · simp [hxy] at hab
          · by_cases hyx : y < x
            · simp [hyx] at hba
            · have hxyeq : x = y := charEq_of_not_lt hxy hyx
              subst hxyeq
              simp only [if_neg hxy, if_neg (lt_irrefl x)] at hab hba
              rw [ih hab hba]

theorem lexLt_asymm {a b : List Char} (h : lexLt a b = true) : lexLt b a = false := by
  by_contra hne
  have hba : lexLt b a = true := by
    cases hb : lexLt b a
    · exact absurd hb hne
    · rfl
  have := lexLt_trans h hba
  rw [lexLt_irrefl] at this
  cases this

theorem string_eq_of_toList_eq {a b : String} (h : a.toList = b.toList) : a = b := by
  cases a; cases b
  simp only [String.toList] at h
  rw [h]

theorem strLt_irrefl (s : String) : strLt s s = false := lexLt_irrefl _

theorem strLt_trans {a b c : String} (h1 : strLt a b = true) (h2 : strLt b c = true) :
    strLt a c = true := lexLt_trans h1 h2

theorem strLt_asymm {a b : String} (h : strLt a b = true) : strLt b a = false :=
  lexLt_asymm h

theorem strLt_eq_of_not {a b : String} (h1 : strLt a b = false) (h2 : strLt b a = false) :
    a = b := string_eq_of_toList_eq (lexLt_eq_of_not h1 h2)

theorem mem_insSorted {x s : String} :
    ∀ {l : List String}, x ∈ insSorted s l ↔ x = s ∨ x ∈ l := by
  intro l
  induction l with
  | nil => simp [insSorted]
  | cons t ts ih =>
      simp only [insSorted]
      by_cases h1 : strLt s t = true
      · rw [if_pos h1]
        simp
      · rw [if_neg h1]
        by_cases h2 : s = t
        · rw [if_pos h2]
          subst h2
          simp only [List.mem_cons]
          tauto
        · rw [if_neg h2]
          simp only [List.mem_cons, ih]
          tauto

theorem pairwise_insSorted {s : String} :
    ∀ {l : List String}, l.Pairwise SLt → (insSorted s l).Pairwise SLt := by
  intro l
  induction l with
  | nil => intro _; simp [insSorted]
  | cons t ts ih =>
      intro hp
      rcases List.pairwise_cons.mp hp with ⟨hhead, htail⟩
      simp only [insSorted]
      by_cases h1 : strLt s t = true
      · rw [if_pos h1]
        refine List.pairwise_cons.mpr ⟨?_, hp⟩
        intro x hx
        rcases List.mem_cons.mp hx with rfl | hx
        · exact h1
        · exact strLt_trans h1 (hhead x hx)
      · rw [if_neg h1]
        by_cases h2 : s = t
        · rw [if_pos h2]
          exact hp
        · rw [if_neg h2]
          refine List.pairwise_cons.mpr ⟨?_, ih htail⟩
          intro x hx
          rcases mem_insSorted.mp hx with rfl | hx
          · have h3 : strLt x t = false := by
              cases hc : strLt x t
              · rfl
              · exact absurd hc h1
            have h4 : strLt t x = true := by
              cases hc : strLt t x
              · exact absurd (strLt_eq_of_not h3 hc) h2
              · rfl
            exact h4
          · exact hhead x hx

theorem mem_sortDedup {x : String} :
    ∀ {l : List String}, x ∈ sortDedup l ↔ x ∈ l := by
  intro l
  induction l with
  | nil => simp [sortDedup]
  | cons t ts ih =>
      simp only [sortDedup, List.foldr] at ih ⊢
      rw [mem_insSorted, ih, List.mem_cons]

theorem pairwise_sortDedup : ∀ (l : List String), (sortDedup l).Pairwise SLt := by
  intro l
  induction l with
  | nil => simp [sortDedup, List.Pairwise]
  | cons t ts ih => exact pairwise_insSorted ih

theorem pairwise_eq_of_mem_iff :
    ∀ {l₁ l₂ : List String}, l₁.Pairwise SLt → l₂.Pairwise SLt →
      (∀ x, x ∈ l₁ ↔ x ∈ l₂) → l₁ = l₂ := by
  intro l₁
  induction l₁ with
  | nil =>
      intro l₂ _ _ hmem
      cases l₂ with
      | nil => rfl
      | cons b t₂ => exact absurd ((hmem b).mpr (List.mem_cons_self b t₂)) (by simp)
  | cons a t₁ ih =>
      intro l₂ hp1 hp2 hmem
      cases l₂ with
      | nil => exact absurd ((hmem a).mp (List.mem_cons_self a t₁)) (by simp)
      | cons b t₂ =>
          rcases List.pairwise_cons.mp hp1 with ⟨hh1, ht1⟩
          rcases List.pairwise_cons.mp hp2 with ⟨hh2, ht2⟩
          have hab : a = b := by
            rcases List.mem_cons.mp ((hmem a).mp (List.mem_cons_self a t₁)) with h | h
            · exact h
            · rcases List.mem_cons.mp ((hmem b).mpr (List.mem_cons_self b t₂)) with h' | h'
              · exact h'.symm
              · exfalso
                have h1 : strLt b a = true := hh2 a h
                have h2 : strLt a b = true := hh1 b h'
                have h3 := strLt_asymm h2
                rw [h3] at h1
                cases h1
          subst hab
          have htmem : ∀ x, x ∈ t₁ ↔ x ∈ t₂ := by
            intro x
            constructor
            · intro hx
              have hx1 : x ∈ a :: t₂ := (hmem x).mp (List.mem_cons_of_mem a hx)
              rcases List.mem_cons.mp hx1 with h | h
              · exfalso
                have h' : strLt a x = true := hh1 x hx
                rw [h] at h'
                rw [strLt_irrefl] at h'
                cases h'
              · exact h
            · intro hx
              have hx1 : x ∈ a :: t₁ := (hmem x).mpr (List.mem_cons_of_mem a hx)
              rcases List.mem_cons.mp hx1 with h | h
              · exfalso
                have h' : strLt a x = true := hh2 x hx
                rw [h] at h'
                rw [strLt_irrefl] at h'
                cases h'
              · exact h
          rw [ih ht1 ht2 htmem]

theorem sortDedup_congr {l₁ l₂ : List String} (h : ∀ x, x ∈ l₁ ↔ x ∈ l₂) :
    sortDedup l₁ = sortDedup l₂ :=
  pairwise_eq_of_mem_iff (pairwise_sortDedup l₁) (pairwise_sortDedup l₂)
    (fun x => by rw [mem_sortDedup, mem_sortDedup]; exact h x)

theorem sortDedup_eq_of_pairwise {l : List String} (h : l.Pairwise SLt) :
    sortDedup l = l :=
  pairwise_eq_of_mem_iff (pairwise_sortDedup l) h (fun _ => mem_sortDedup)

/-- Absorption: appending elements already present does not change a
canonical sorted-dedup list. -/
theorem sortDedup_append_absorb {S extra : List String} (hS : S.Pairwise SLt)
    (h : ∀ x ∈ extra, x ∈ S) : sortDedup (S ++ extra) = S :=
  pairwise_eq_of_mem_iff (pairwise_sortDedup _) hS
    (fun x => by
      rw [mem_sortDedup, List.mem_append]
      exact ⟨fun hmem => hmem.elim id (h x), Or.inl⟩)

/-! ### Dictionary update lemmas -/

theorem getKey_setKey_self (m : AList) (k : String) (v : Val) :
    getKey (setKey m k v) k = some v := by
  induction m with
  | nil => simp [setKey, getKey]
  | cons p rest ih =>
      obtain ⟨k', v'⟩ := p
      simp only [setKey]
      by_cases h : k' = k
      · rw [if_pos h]
        simp [getKey]
      · rw [if_neg h]
        simp only [getKey, if_neg h]
        exact ih

theorem getKey_setKey_ne :
    ∀ (m : AList) {k k' : String} (v : Val), k' ≠ k →
      getKey (setKey m k v) k' = getKey m k'
  | [], k, k', v, h => by
      simp only [setKey, getKey]
      rw [if_neg (fun he => h he.symm)]
  | (k0, v0) :: rest, k, k', v, h => by
      simp only [setKey]
      by_cases h0 : k0 = k
      · rw [if_pos h0]
        simp only [getKey]
        rw [if_neg (fun he => h he.symm), if_neg (fun he : k0 = k' => h (he.symm.trans h0))]
      · rw [if_neg h0]
        simp only [getKey]
        by_cases h1 : k0 = k'
        · rw [if_pos h1, if_pos h1]
        · rw [if_neg h1, if_neg h1]
          exact getKey_setKey_ne rest v h

/-- Writing back the value already stored is the identity. -/
theorem setKey_id {m : AList} {k : String} {v : Val} (h : getKey m k = some v) :
    setKey m k v = m := by
  induction m with
  | nil => simp [getKey] at h
  | cons p rest ih =>
      obtain ⟨k0, v0⟩ := p
      simp only [getKey] at h
      simp only [setKey]
      by_cases h0 : k0 = k
      · rw [if_pos h0]
        rw [if_pos h0] at h
        cases h
        rw [h0]
      · rw [if_neg h0]
        rw [if_neg h0] at h
        rw [ih h]

theorem mem_keysOf_setKey (m : AList) (k k' : String) (v : Val) (h : k' ∈ keysOf m) :
    k' ∈ keysOf (setKey m k v) := by
  induction m with
  | nil => simp [keysOf] at h
  | cons p rest ih =>
      obtain ⟨k0, v0⟩ := p
      simp only [setKey]
      by_cases h0 : k0 = k
      · rw [if_pos h0]
        simp only [keysOf, List.map_cons, List.mem_cons] at h ⊢
        rcases h with h | h
        · exact Or.inl (h.trans h0)
        · exact Or.inr h
      · rw [if_neg h0]
        simp only [keysOf, List.map_cons, List.mem_cons] at h ⊢
        rcases h with h | h
        · exact Or.inl h
        · exact Or.inr (ih h)

/-! ### Structural lemmas about `recursive_merge` -/

/-- A key absent from the overrides is untouched by the merge. -/
theorem merge_frame :
    ∀ (m ov m' : AList), recursive_merge m ov = Except.ok m' →
      ∀ k, k ∉ keysOf ov → getKey m' k = getKey m k := by
  intro m ov
  induction ov generalizing m with
  | nil =>
      intro m' h k _
      simp only [recursive_merge] at h
      cases h
      rfl
  | cons p rest ih =>
      obtain ⟨k0, v⟩ := p
      intro m' h k hk
      have hkne : k ≠ k0 := by
        intro he
        exact hk (by simp [keysOf, he])
      have hkrest : k ∉ keysOf rest := by
        intro he
        exact hk (by simp [keysOf]; right; simpa [keysOf] using he)
      simp only [recursive_merge] at h
      split at h
      · cases h
      · split at h
        · rename_i d o hgd hvd
          split at h
          · cases h
          · rename_i sub hsub
            rw [ih _ _ h k hkrest, getKey_setKey_ne _ _ hkne]
        · split at h
          · rename_i hcap
            have hk0cap : k0 = "capabilities" := by
              have h2 := hcap
              simp only [Bool.and_eq_true, decide_eq_true_eq] at h2
              exact h2.1
            rw [ih _ _ h k hkrest, getKey_setKey_ne _ _ (hk0cap ▸ hkne)]
          · rw [ih _ _ h k hkrest, getKey_setKey_ne _ _ hkne]

/-- Keys present before a merge are still present afterwards. -/
theorem merge_keys_mono :
    ∀ (m ov m' : AList), recursive_merge m ov = Except.ok m' →
      ∀ k, k ∈ keysOf m → k ∈ keysOf m' := by
  intro m ov
  induction ov generalizing m with
  | nil =>
      intro m' h k hk
      simp only [recursive_merge] at h
      cases h
      exact hk
  | cons p rest ih =>
      obtain ⟨k0, v⟩ := p
      intro m' h k hk
      simp only [recursive_merge] at h
      split at h
      · cases h
      · split at h
        · split at h
          · cases h
          · exact ih _ _ h k (mem_keysOf_setKey _ _ _ _ hk)
        · split at h
          · exact ih _ _ h k (mem_keysOf_setKey _ _ _ _ hk)
          · exact ih _ _ h k (mem_keysOf_setKey _ _ _ _ hk)

theorem enabled_setKey {m : AList} {k0 : String} {w : Val}
    (hm : getKey m "enabled" ≠ some (Val.bool false))
    (hw : k0 = "enabled" → w ≠ Val.bool false) :
    getKey (setKey m k0 w) "enabled" ≠ some (Val.bool false) := by
  by_cases hk : k0 = "enabled"
  · subst hk
    rw [getKey_setKey_self]
    intro hc
    exact hw rfl (Option.some.inj hc)
  · rw [getKey_setKey_ne _ _ (fun he => hk he.symm)]
    exact hm

/-- The merge never produces `enabled = False`: an explicit `False`
override raises, and every other write leaves a non-`False` value. -/
theorem merge_enabled_invariant :
    ∀ (m ov m' : AList), recursive_merge m ov = Except.ok m' →
      getKey m "enabled" ≠ some (Val.bool false) →
      getKey m' "enabled" ≠ some (Val.bool false) := by
  intro m ov
  induction ov generalizing m with
  | nil =>
      intro m' h hm
      simp only [recursive_merge] at h
      cases h
      exact hm
  | cons p rest ih =>
      obtain ⟨k0, v⟩ := p
      intro m' h hm
      simp only [recursive_merge] at h
      split at h
      · cases h
      · rename_i hcond
        split at h
        · split at h
          · cases h
          · exact ih _ _ h (enabled_setKey hm (fun _ hc => Val.noConfusion hc))
        · split at h
          · exact ih _ _ h (enabled_setKey hm (fun _ hc => Val.noConfusion hc))
          · refine ih _ _ h (enabled_setKey hm ?_)
            intro hk0 hv
            subst hk0
            subst hv
            simp [isFalseVal] at hcond

theorem getKey_mem : ∀ {m : AList} {k : String} {v : Val}, getKey m k = some v → (k, v) ∈ m := by
  intro m
  induction m with
  | nil => intro k v h; simp [getKey] at h
  | cons p rest ih =>
      obtain ⟨k0, v0⟩ := p
      intro k v h
      simp only [getKey] at h
      by_cases h0 : k0 = k
      · rw [if_pos h0] at h
        cases h
        subst h0
        exact List.mem_cons_self _ _
      · rw [if_neg h0] at h
        exact List.mem_cons_of_mem _ (ih h)

/-- An `enabled = False` pair anywhere in the processed override list makes
the merge raise. -/
theorem merge_error_of_enabled_false :
    ∀ (ov m : AList), ("enabled", Val.bool false) ∈ ov →
      ∃ e, recursive_merge m ov = Except.error e := by
  intro ov
  induction ov with
  | nil => intro m h; simp at h
  | cons p rest ih =>
      obtain ⟨k0, v⟩ := p
      intro m hmem
      simp only [recursive_merge]
      by_cases hc : (k0 = "enabled" && isFalseVal v) = true
      · rw [if_pos hc]
        exact ⟨_, rfl⟩
      · rw [if_neg hc]
        have hrest : ("enabled", Val.bool false) ∈ rest := by
          rcases List.mem_cons.mp hmem with h | h
          · exfalso
            apply hc
            have h1 : "enabled" = k0 := congrArg Prod.fst h
            have h2 : Val.bool false = v := congrArg Prod.snd h
            subst h1; subst h2
            simp [isFalseVal]
          · exact h
        split
        · split
          · exact ⟨_, rfl⟩
          · exact ih _ hrest
        · split
          · exact ih _ hrest
          · exact ih _ hrest

/-- The `"enabled"` entry of the dict a profile-based merge returns: never
the boolean `False`, and exactly the base's `True` when the overrides carry
no top-level `"enabled"` key. -/
theorem merge_metadata_enabled (p : SandboxProfileL) (ov : Option Val) (merged : AList)
    (h : merge_metadata (some p) ov = Except.ok merged) :
    getKey merged "enabled" ≠ some (Val.bool false) ∧
      ((∀ o, ov = some (Val.dict o) → "enabled" ∉ keysOf o) →
        getKey merged "enabled" = some (Val.bool true)) := by
  have hbase : getKey p.to_metadata "enabled" = some (Val.bool true) := rfl
  cases ov with
  | none =>
      simp only [merge_metadata] at h
      cases h
      exact ⟨by rw [hbase]; simp, fun _ => hbase⟩
  | some v =>
      simp only [merge_metadata] at h
      by_cases ht : pyTruthy v = false
      · rw [if_pos ht] at h
        cases h
        refine ⟨by rw [hbase]; simp, fun _ => hbase⟩
      · rw [if_neg ht] at h
        cases v with
        | dict o =>
            refine ⟨merge_enabled_invariant _ _ _ h (by rw [hbase]; simp), ?_⟩
            intro hno
            rw [merge_frame _ _ _ h "enabled" (hno o rfl), hbase]
        | str s => cases h; exact ⟨by rw [hbase]; simp, fun _ => hbase⟩
        | num q => cases h; exact ⟨by rw [hbase]; simp, fun _ => hbase⟩
        | bool b => cases h; exact ⟨by rw [hbase]; simp, fun _ => hbase⟩
        | none => cases h; exact ⟨by rw [hbase]; simp, fun _ => hbase⟩
        | list l => cases h; exact ⟨by rw [hbase]; simp, fun _ => hbase⟩

theorem mergeCustomSandbox_disabled (md : AList) (o : AList)
    (ho : getKey md "sandbox" = some (Val.dict o))
    (he : getKey o "enabled" = some (Val.bool false)) :
    ∃ e, mergeCustomSandbox md = Except.error e := by
  have hone : o ≠ [] := by
    intro h0
    rw [h0] at he
    simp [getKey] at he
  have hpt : pyTruthy (Val.dict o) = true := by
    cases o with
    | nil => exact absurd rfl hone
    | cons p rest => rfl
  obtain ⟨e, hme⟩ := merge_error_of_enabled_false o [("enabled", Val.bool true)] (getKey_mem he)
  refine ⟨e, ?_⟩
  simp only [mergeCustomSandbox, ho, Option.getD]
  rw [if_pos hpt]
  simp only [merge_metadata]
  rw [if_neg (by rw [hpt]; simp)]
  rw [hme]

/-! ### Claim theorems -/

/-- C1 (counterexample to the claim as stated): for the command
`"codex lint"` and metadata whose sandbox override sets `enabled` to the
number `0`, `ensure_sandbox_metadata` neither raises nor returns
`sandbox.enabled = true`: only the boolean `False` is rejected, any other
value is copied through by the merge, so the returned `enabled` is `0`,
which is not the boolean `true`. -/
theorem C1_counterexample :
    ensure_sandbox_metadata "codex lint"
        (some [("agent", Val.str "codex"),
          ("sandbox", Val.dict [("enabled", Val.num 0)])]) =
      Except.ok [("agent", Val.str "codex"),
        ("sandbox", Val.dict [("enabled", Val.num 0), ("profile", Val.str "codex-standard"),
          ("limits", Val.dict [("cpu", Val.num 1), ("memory_mb", Val.num 512),
            ("disk_mb", Val.num 1024), ("timeout_seconds", Val.num 1800)]),
          ("network", Val.dict [("allow", Val.bool false)]),
          ("working_dir", Val.str "/app/workspace"),
          ("capabilities", Val.list [Val.str "CAP_CHOWN", Val.str "CAP_DAC_OVERRIDE"])])] ∧
      (some (Val.num 0) ≠ some (Val.bool true)) :=
  ⟨rfl, fun h => Val.noConfusion (Option.some.inj h)⟩

/-- C1 (amended): for every command and metadata whose agent resolves to a
mandatory agent (and whose sandbox block, if present, is a dict or falsy —
other shapes crash Python with `AttributeError`), `ensure_sandbox_metadata`
either raises `SandboxError`, or returns metadata in which
`sandbox.enabled` is never the boolean `false` — and is exactly the boolean
`true` whenever the overrides carry no top-level `"enabled"` key; moreover
a successful return implies the overrides did not set `enabled = false`
(that override always raises). -/
theorem C1_theorem (cmd : String) (md : AList) (a : String)
    (hag : normalise_agent (getKey md "agent") cmd = some a)
    (hsup : a ∈ SUPPORTED_AGENTS)
    (hshape : sandboxShaped md = true) :
    (∃ e, ensure_sandbox_metadata cmd (some md) = Except.error e) ∨
    (∃ r, ensure_sandbox_metadata cmd (some md) = Except.ok r ∧
      sandboxEnabledOf r ≠ some (Val.bool false) ∧
      ((∀ o, getKey md "sandbox" = some (Val.dict o) → "enabled" ∉ keysOf o) →
        sandboxEnabledOf r = some (Val.bool true)) ∧
      (∀ o, getKey md "sandbox" = some (Val.dict o) →
        getKey o "enabled" ≠ some (Val.bool false))) := by
  cases hv : validate_command cmd with
  | error e =>
      left
      exact ⟨e, by simp only [ensure_sandbox_metadata, hv]⟩
  | ok u =>
      cases u
      obtain ⟨p, hp⟩ : ∃ p, profileFor a = some p := by
        have h2 : a = "codex" ∨ a = "claude" := by simpa [SUPPORTED_AGENTS] using hsup
        rcases h2 with rfl | rfl
        · exact ⟨codexProfile, rfl⟩
        · exact ⟨claudeProfile, rfl⟩
      have hsb1 : getKey (setKey md "agent" (Val.str a)) "sandbox" = getKey md "sandbox" :=
        getKey_setKey_ne md (Val.str a) (by decide)
      have hbase : getKey p.to_metadata "enabled" = some (Val.bool true) := rfl
      simp only [ensure_sandbox_metadata, hv, Option.getD, hag, hp, hsb1]
      rw [if_pos hsup]
      cases hov : getKey md "sandbox" with
      | none =>
          right
          refine ⟨_, rfl, ?_, ?_, ?_⟩
          · simp only [sandboxEnabledOf, getKey_setKey_self]
            rw [hbase]
            simp
          · intro _
            simp only [sandboxEnabledOf, getKey_setKey_self]
            exact hbase
          · intro o ho
            cases ho
      | some v =>
          cases v
          case dict o =>
            by_cases hd :
                (match getKey o "enabled" with
                 | some (Val.bool false) => true
                 | _ => false) = true
            · rw [if_pos hd]
              left
              exact ⟨_, rfl⟩
            · rw [if_neg hd]
              have henb : getKey o "enabled" ≠ some (Val.bool false) := by
                intro hc
                apply hd
                rw [hc]
              cases hm : merge_metadata (some p) (some (Val.dict o)) with
              | error e =>
                  left
                  refine ⟨e, ?_⟩
                  simp only [hm]
              | ok merged =>
                  right
                  obtain ⟨hne, htrue⟩ := merge_metadata_enabled p _ merged hm
                  refine ⟨_, rfl, ?_, ?_, ?_⟩
                  · simp only [sandboxEnabledOf, getKey_setKey_self]
                    exact hne
                  · intro hno
                    simp only [sandboxEnabledOf, getKey_setKey_self]
                    exact htrue hno
                  · intro o' ho'
                    have ho2 : o' = o := (Val.dict.inj (Option.some.inj ho')).symm
                    rw [ho2]
                    exact henb
          all_goals
            (simp only [sandboxShaped, hov] at hshape
             rw [Bool.not_eq_true'] at hshape
             right
             refine ⟨setKey (setKey md "agent" (Val.str a)) "sandbox" (Val.dict p.to_metadata),
               ?_, ?_, ?_, ?_⟩
             · rw [if_neg (by simp)]
               simp only [merge_metadata, hshape]
               rw [ite_self]
             · simp only [sandboxEnabledOf, getKey_setKey_self]
               rw [hbase]
               simp
             · intro _
               simp only [sandboxEnabledOf, getKey_setKey_self]
               exact hbase
             · intro o ho
               cases ho)

/-- C1 (witness): the amended theorem applied to `"codex lint"` with agent
`codex` and no sandbox overrides. -/
theorem C1_witness :
    (∃ e, ensure_sandbox_metadata "codex lint"
        (some [("agent", Val.str "codex")]) = Except.error e) ∨
    (∃ r, ensure_sandbox_metadata "codex lint"
        (some [("agent", Val.str "codex")]) = Except.ok r ∧
      sandboxEnabledOf r ≠ some (Val.bool false) ∧
      ((∀ o, getKey [("agent", Val.str "codex")] "sandbox" = some (Val.dict o) →
          "enabled" ∉ keysOf o) →
        sandboxEnabledOf r = some (Val.bool true)) ∧
      (∀ o, getKey [("agent", Val.str "codex")] "sandbox" = some (Val.dict o) →
        getKey o "enabled" ≠ some (Val.bool false))) :=
  C1_theorem "codex lint" [("agent", Val.str "codex")] "codex" rfl (by decide) rfl

/-- C10: for every command and every metadata whose sandbox block is a dict
containing the top-level key `"enabled"` with the boolean value `false`,
`ensure_sandbox_metadata` raises `SandboxError` whatever the agent is
(mandatory, custom, or absent): the supported-agent path rejects it
up front, and every other path funnels the block through the generic
recursive merge, which raises on the `enabled = False` pair. -/
theorem C10_theorem (cmd : String) (md : AList) (o : AList)
    (ho : getKey md "sandbox" = some (Val.dict o))
    (he : getKey o "enabled" = some (Val.bool false)) :
    ∃ e, ensure_sandbox_metadata cmd (some md) = Except.error e := by
  cases hv : validate_command cmd with
  | error e => exact ⟨e, by simp only [ensure_sandbox_metadata, hv]⟩
  | ok u =>
      cases u
      cases hag : normalise_agent (getKey md "agent") cmd with
      | none =>
          obtain ⟨e, hmc⟩ := mergeCustomSandbox_disabled md o ho he
          exact ⟨e, by simp only [ensure_sandbox_metadata, hv, Option.getD, hag, hmc]⟩
      | some a =>
          have hsb1 : getKey (setKey md "agent" (Val.str a)) "sandbox" = getKey md "sandbox" :=
            getKey_setKey_ne md (Val.str a) (by decide)
          by_cases hsup : a ∈ SUPPORTED_AGENTS
          · obtain ⟨p, hp⟩ : ∃ p, profileFor a = some p := by
              have h2 : a = "codex" ∨ a = "claude" := by simpa [SUPPORTED_AGENTS] using hsup
              rcases h2 with rfl | rfl
              · exact ⟨codexProfile, rfl⟩
              · exact ⟨claudeProfile, rfl⟩
            refine ⟨SANDBOX_MANDATORY_MSG, ?_⟩
            simp only [ensure_sandbox_metadata, hv, Option.getD, hag, hp, hsb1, ho]
            rw [if_pos hsup]
            rw [if_pos (by rw [he])]
          · obtain ⟨e, hmc⟩ := mergeCustomSandbox_disabled (setKey md "agent" (Val.str a)) o
              (by rw [hsb1]; exact ho) he
            refine ⟨e, ?_⟩
            simp only [ensure_sandbox_metadata, hv, Option.getD, hag]
            rw [if_neg hsup]
            exact hmc

/-- C10 (witness): a task with no agent at all and a custom sandbox block
disabling the sandbox is still rejected. -/
theorem C10_witness :
    ∃ e, ensure_sandbox_metadata "npm test"
        (some [("sandbox", Val.dict [("enabled", Val.bool false)])]) =
      Except.error e :=
  C10_theorem "npm test" [("sandbox", Val.dict [("enabled", Val.bool false)])]
    [("enabled", Val.bool false)] rfl rfl

theorem append_ne_empty_left (pre m : String) (hp : 0 < pre.length) : pre ++ m ≠ "" := by
  intro hc
  have hlen := congrArg String.length hc
  rw [String.length_append] at hlen
  have h0 : ("" : String).length = 0 := rfl
  rw [h0] at hlen
  omega

/-- Whenever `is_command_allowed` rejects, the reason it returns is a
non-empty string. -/
theorem is_command_allowed_reason_ne {st : Settings} {cmd : String} {r : String}
    (h : is_command_allowed st cmd = (false, some r)) : r ≠ "" := by
  simp only [is_command_allowed] at h
  split at h
  · simp only [Prod.mk.injEq] at h
    rw [← Option.some.inj h.2]
    decide
  · split at h
    · simp only [Prod.mk.injEq] at h
      rw [← Option.some.inj h.2]
      decide
    · split at h
      · simp only [Prod.mk.injEq] at h
        rw [← Option.some.inj h.2]
        exact append_ne_empty_left _ _ (by decide)
      · split at h
        · simp at h
        · simp only [Prod.mk.injEq] at h
          rw [← Option.some.inj h.2]
          refine append_ne_empty_left _ _ ?_
          rw [String.length_append]
          have hp : 0 < ("root command '" : String).length := by decide
          omega

/-- C2: `evaluate_runtime_policy` always returns a pair: `allow` with no
reason when the command passes the allow-list validator; when it fails,
`block` with the validator's reason if global approvals are disabled;
otherwise `gate`/`block` according to the approval policy when sandbox
enforcement is on or the per-task mode is strict, and `allow` in the
permissive case.  The sandbox block, if present, is assumed dict-shaped
(the code crashes with `AttributeError` otherwise). -/
theorem C2_theorem (st : Settings) (cmd : String) (md : AList)
    (_hshape : sandboxDictOrAbsent md = true) :
    ((is_command_allowed st cmd).1 = true →
      evaluate_runtime_policy st cmd (some md) = ("allow", Option.none)) ∧
    (∀ r, is_command_allowed st cmd = (false, some r) →
      (st.APPROVALS_ENABLED = false →
          evaluate_runtime_policy st cmd (some md) = ("block", some r)) ∧
      (st.APPROVALS_ENABLED = true →
        ((st.SANDBOX_ENFORCED = true ∨ taskSandboxMode md = "strict") →
            ((taskApproval md = "manual" ∨ taskApproval md = "auto_with_gates") →
              evaluate_runtime_policy st cmd (some md) = ("gate", some r)) ∧
            (taskApproval md ≠ "manual" → taskApproval md ≠ "auto_with_gates" →
              evaluate_runtime_policy st cmd (some md) = ("block", some r))) ∧
        (st.SANDBOX_ENFORCED = false → taskSandboxMode md ≠ "strict" →
          evaluate_runtime_policy st cmd (some md) = ("allow", Option.none)))) := by
  constructor
  · intro h1
    cases hic : is_command_allowed st cmd with
    | mk b ro =>
        rw [hic] at h1
        simp at h1
        subst h1
        simp [evaluate_runtime_policy, hic]
  · intro r hic
    have hrne := is_command_allowed_reason_ne hic
    have hord : orDefault (some r) "blocked by sandbox" = r := by
      simp [orDefault, hrne]
    refine ⟨?_, ?_⟩
    · intro hap
      simp [evaluate_runtime_policy, hic, hap, hord]
    · intro hap
      refine ⟨?_, ?_⟩
      · intro henf
        constructor
        · intro happ
          rcases happ with h2 | h2 <;>
            rcases henf with h3 | h3 <;>
              simp [evaluate_runtime_policy, hic, hap, hord, h2, h3]
        · intro hm hg
          rcases henf with h3 | h3 <;>
            simp [evaluate_runtime_policy, hic, hap, hord, hm, hg, h3]
      · intro henf hmode
        simp [evaluate_runtime_policy, hic, hap, hord, henf, hmode]

/-- C2 (witness): `"sudo rm -rf /"` with default settings (approvals
enabled, sandbox enforced) and approval policy `"manual"` is gated, with
the denylist validator's reason. -/
theorem C2_witness :
    evaluate_runtime_policy {} "sudo rm -rf /"
        (some [("approval_policy", Val.str "manual")]) =
      ("gate", some "command contains denied pattern: \\bsudo\\b") :=
  (((( C2_theorem {} "sudo rm -rf /" [("approval_policy", Val.str "manual")] rfl).2
      "command contains denied pattern: \\bsudo\\b" rfl).2 rfl).1 (Or.inl rfl)).1
    (Or.inl rfl)

/-- C9: a command that is empty or consists only of whitespace fails both
validators, each with its fixed non-empty reason. -/
theorem C9_theorem (st : Settings) (cmd : String)
    (h : ∀ c ∈ cmd.toList, isPySpace c = true) :
    (validate_command cmd = Except.error "Command cannot be empty" ∧
      "Command cannot be empty" ≠ "") ∧
    (is_command_allowed st cmd = (false, some "empty command") ∧
      "empty command" ≠ "") := by
  have hstrip : stripChars cmd.toList = [] := by
    unfold stripChars
    rw [List.dropWhile_eq_nil_iff.mpr h]
    rfl
  refine ⟨⟨?_, by decide⟩, ?_, by decide⟩
  · simp only [validate_command, hstrip, if_true]
  · simp only [is_command_allowed, hstrip, if_true]

/-- C9 (witness): the three-space command. -/
theorem C9_witness :
    (validate_command "   " = Except.error "Command cannot be empty" ∧
      "Command cannot be empty" ≠ "") ∧
    (is_command_allowed {} "   " = (false, some "empty command") ∧
      "empty command" ≠ "") :=
  C9_theorem {} "   " (by decide)

/-- C5 (counterexample to the claim as stated): the `start` action on a
FAILED task does not produce an error — the service also allows
FAILED → RUNNING (`task.py` line 277 checks
`status not in [PENDING, FAILED]`), an edge the claim's state machine does
not contain. -/
theorem C5_counterexample :
    execute_task_action { status := TaskStatus.failed } "start" Option.none 7 =
      Except.ok
        { status := TaskStatus.running
          started_at := some 7
          updated_at := some 7 } :=
  rfl

/-- C5 (amended): the status changes performed by `execute_task_action`
are exactly — start: PENDING or FAILED → RUNNING; cancel: PENDING or
RUNNING → CANCELLED; confirm: WAITING_CONFIRMATION → RUNNING; retry:
FAILED or CANCELLED → PENDING — and a request from any other status is
reported as an error (the task left unchanged, nothing committed). -/
theorem C5_theorem (t : MTask) (reason : Option String) (now : Nat) :
    ((t.status = .pending ∨ t.status = .failed) →
      ∃ t', execute_task_action t "start" reason now = Except.ok t' ∧
        t'.status = .running) ∧
    (¬(t.status = .pending ∨ t.status = .failed) →
      ∃ e, execute_task_action t "start" reason now = Except.error e) ∧
    ((t.status = .pending ∨ t.status = .running) →
      ∃ t', execute_task_action t "cancel" reason now = Except.ok t' ∧
        t'.status = .cancelled) ∧
    (¬(t.status = .pending ∨ t.status = .running) →
      ∃ e, execute_task_action t "cancel" reason now = Except.error e) ∧
    (t.status = .waiting_confirmation →
      ∃ t', execute_task_action t "confirm" reason now = Except.ok t' ∧
        t'.status = .running) ∧
    (t.status ≠ .waiting_confirmation →
      ∃ e, execute_task_action t "confirm" reason now = Except.error e) ∧
    ((t.status = .failed ∨ t.status = .cancelled) →
      ∃ t', execute_task_action t "retry" reason now = Except.ok t' ∧
        t'.status = .pending) ∧
    (¬(t.status = .failed ∨ t.status = .cancelled) →
      ∃ e, execute_task_action t "retry" reason now = Except.error e) := by
  refine ⟨?_, ?_, ?_, ?_, ?_, ?_, ?_, ?_⟩
  · intro h
    refine ⟨{ t with status := .running, started_at := some now, updated_at := some now },
      ?_, rfl⟩
    simp only [execute_task_action]
    rw [if_pos trivial, if_pos h]
  · intro h
    refine ⟨"只有待执行或失败的任务可以启动", ?_⟩
    simp only [execute_task_action]
    rw [if_pos trivial, if_neg h]
  · intro h
    refine ⟨{ t with
        status := .cancelled
        completed_at := some now
        error :=
          match reason with
          | some r => if r != "" then some ("任务被取消: " ++ r) else t.error
          | Option.none => t.error
        updated_at := some now }, ?_, rfl⟩
    simp only [execute_task_action]
    rw [if_neg (by decide), if_pos trivial, if_pos h]
  · intro h
    refine ⟨"只有待执行或运行中的任务可以取消", ?_⟩
    simp only [execute_task_action]
    rw [if_neg (by decide), if_pos trivial, if_neg h]
  · intro h
    refine ⟨{ t with status := .running, updated_at := some now }, ?_, rfl⟩
    simp only [execute_task_action]
    rw [if_neg (by decide), if_neg (by decide), if_pos trivial, if_pos h]
  · intro h
    refine ⟨"只有等待确认的任务可以确认", ?_⟩
    simp only [execute_task_action]
    rw [if_neg (by decide), if_neg (by decide), if_pos trivial, if_neg h]
  · intro h
    refine ⟨{ t with
        status := .pending
        started_at := Option.none
        completed_at := Option.none
        output := Option.none
        error := Option.none
        exit_code := Option.none
        progress := Option.none
        updated_at := some now }, ?_, rfl⟩
    simp only [execute_task_action]
    rw [if_neg (by decide), if_neg (by decide), if_neg (by decide), if_pos trivial, if_pos h]
  · intro h
    refine ⟨"只有失败或取消的任务可以重试", ?_⟩
    simp only [execute_task_action]
    rw [if_neg (by decide), if_neg (by decide), if_neg (by decide), if_pos trivial, if_neg h]

/-- C5 (witness): the amended theorem applied to a PENDING task. -/
theorem C5_witness :
    ((TaskStatus.pending = TaskStatus.pending ∨ TaskStatus.pending = TaskStatus.failed) →
      ∃ t', execute_task_action { status := TaskStatus.pending } "start" Option.none 3 =
        Except.ok t' ∧ t'.status = .running) ∧
    (¬(TaskStatus.pending = TaskStatus.pending ∨ TaskStatus.pending = TaskStatus.failed) →
      ∃ e, execute_task_action { status := TaskStatus.pending } "start" Option.none 3 =
        Except.error e) ∧
    ((TaskStatus.pending = TaskStatus.pending ∨ TaskStatus.pending = TaskStatus.running) →
      ∃ t', execute_task_action { status := TaskStatus.pending } "cancel" Option.none 3 =
        Except.ok t' ∧ t'.status = .cancelled) ∧
    (¬(TaskStatus.pending = TaskStatus.pending ∨ TaskStatus.pending = TaskStatus.running) →
      ∃ e, execute_task_action { status := TaskStatus.pending } "cancel" Option.none 3 =
        Except.error e) ∧
    (TaskStatus.pending = TaskStatus.waiting_confirmation →
      ∃ t', execute_task_action { status := TaskStatus.pending } "confirm" Option.none 3 =
        Except.ok t' ∧ t'.status = .running) ∧
    (TaskStatus.pending ≠ TaskStatus.waiting_confirmation →
      ∃ e, execute_task_action { status := TaskStatus.pending } "confirm" Option.none 3 =
        Except.error e) ∧
    ((TaskStatus.pending = TaskStatus.failed ∨ TaskStatus.pending = TaskStatus.cancelled) →
      ∃ t', execute_task_action { status := TaskStatus.pending } "retry" Option.none 3 =
        Except.ok t' ∧ t'.status = .pending) ∧
    (¬(TaskStatus.pending = TaskStatus.failed ∨ TaskStatus.pending = TaskStatus.cancelled) →
      ∃ e, execute_task_action { status := TaskStatus.pending } "retry" Option.none 3 =
        Except.error e) :=
  C5_theorem { status := TaskStatus.pending } Option.none 3

/-- C6 (counterexample to the claim as stated): retrying a FAILED task
whose `duration` is 42 leaves `duration = 42` — the retry branch
(`task.py` lines 311–324) clears progress, output, error, exit_code,
started_at and completed_at but never touches `duration`. -/
theorem C6_counterexample :
    execute_task_action { status := TaskStatus.failed, duration := some 42 }
        "retry" Option.none 7 =
      Except.ok
        { status := TaskStatus.pending
          duration := some 42
          updated_at := some 7 } ∧
    (some 42 : Option Nat) ≠ Option.none :=
  ⟨rfl, by decide⟩

/-- C6 (amended): for every task in status FAILED or CANCELLED, retry sets
the status to PENDING and clears progress, output, error, exit_code,
started_at and completed_at — but leaves `duration` unchanged. -/
theorem C6_theorem (t : MTask) (reason : Option String) (now : Nat)
    (h : t.status = .failed ∨ t.status = .cancelled) :
    execute_task_action t "retry" reason now =
      Except.ok
        { t with
          status := .pending
          started_at := Option.none
          completed_at := Option.none
          output := Option.none
          error := Option.none
          exit_code := Option.none
          progress := Option.none
          updated_at := some now } ∧
    ∀ t', execute_task_action t "retry" reason now = Except.ok t' →
      t'.duration = t.duration := by
  have h1 : execute_task_action t "retry" reason now =
      Except.ok
        { t with
          status := .pending
          started_at := Option.none
          completed_at := Option.none
          output := Option.none
          error := Option.none
          exit_code := Option.none
          progress := Option.none
          updated_at := some now } := by
    simp only [execute_task_action]
    rw [if_neg (by decide), if_neg (by decide), if_neg (by decide), if_pos trivial, if_pos h]
  refine ⟨h1, ?_⟩
  intro t' h2
  rw [h1] at h2
  cases h2
  rfl

/-- C6 (witness): the amended theorem applied to a CANCELLED task carrying
telemetry. -/
theorem C6_witness :
    execute_task_action retryWitnessTask "retry" Option.none 5 =
      Except.ok
        { retryWitnessTask with
          status := .pending
          started_at := Option.none
          completed_at := Option.none
          output := Option.none
          error := Option.none
          exit_code := Option.none
          progress := Option.none
          updated_at := some 5 } ∧
    ∀ t', execute_task_action retryWitnessTask "retry" Option.none 5 = Except.ok t' →
      t'.duration = retryWitnessTask.duration :=
  C6_theorem retryWitnessTask Option.none 5 (Or.inr rfl)

theorem ordBefore_trans {a b c : STask} (h1 : ordBefore a b) (h2 : ordBefore b c) :
    ordBefore a c := by
  unfold ordBefore at h1 h2 ⊢
  omega

theorem notBefore_trans {a b c : STask} (h1 : ¬ordBefore b a) (h2 : ¬ordBefore c b) :
    ¬ordBefore c a := by
  unfold ordBefore at h1 h2 ⊢
  omega

/-- The running minimum is a member of the candidates and no candidate
sorts strictly before it. -/
theorem pickBest_spec :
    ∀ (l : List STask) (b : STask),
      pickBest b l ∈ b :: l ∧ ∀ u ∈ b :: l, ¬ordBefore u (pickBest b l) := by
  intro l
  induction l with
  | nil =>
      intro b
      simp only [pickBest]
      refine ⟨List.mem_cons_self b [], ?_⟩
      intro u hu
      rcases List.mem_cons.mp hu with rfl | hu
      · unfold ordBefore
        omega
      · simp at hu
  | cons t ts ih =>
      intro b
      simp only [pickBest]
      by_cases hc : ordBefore t b
      · rw [if_pos hc]
        obtain ⟨hmem, hbest⟩ := ih t
        constructor
        · rcases List.mem_cons.mp hmem with h | h
          · rw [h]
            exact List.mem_cons_of_mem b (List.mem_cons_self t ts)
          · exact List.mem_cons_of_mem b (List.mem_cons_of_mem t h)
        · intro u hu
          rcases List.mem_cons.mp hu with rfl | hu
          · -- u = b : if b beat the pick, then t would beat the pick too
            intro hb
            exact hbest t (List.mem_cons_self t ts) (ordBefore_trans hc hb)
          · exact hbest u hu
      · rw [if_neg hc]
        obtain ⟨hmem, hbest⟩ := ih b
        constructor
        · rcases List.mem_cons.mp hmem with h | h
          · rw [h]
            exact List.mem_cons_self b (t :: ts)
          · exact List.mem_cons_of_mem b (List.mem_cons_of_mem t h)
        · intro u hu
          rcases List.mem_cons.mp hu with rfl | hu
          · exact hbest u (List.mem_cons_self u ts)
          · rcases List.mem_cons.mp hu with rfl | hu
            · exact notBefore_trans (hbest b (List.mem_cons_self b ts)) hc
            · exact hbest u (List.mem_cons_of_mem b hu)

/-- C3: when at least one task is eligible (PENDING, or RUNNING with no
started_at, and scheduled_at unset or elapsed), the selection returns
exactly one task, an eligible one, whose priority index
(urgent > high > medium > low under the MySQL enum collation) is maximal
among eligible tasks, with the earliest created_at among equal
priorities. -/
theorem C3_theorem (now : Nat) (tasks : List STask)
    (h : ∃ t ∈ tasks, eligibleTask now t = true) :
    ∃ t, fetch_next_task now tasks = some t ∧ t ∈ tasks ∧ eligibleTask now t = true ∧
      ∀ u ∈ tasks, eligibleTask now u = true →
        u.priority.idx ≤ t.priority.idx ∧
        (u.priority.idx = t.priority.idx → t.created_at ≤ u.created_at) := by
  cases hf : tasks.filter (eligibleTask now) with
  | nil =>
      exfalso
      obtain ⟨t, ht, helig⟩ := h
      have : t ∈ tasks.filter (eligibleTask now) := List.mem_filter.mpr ⟨ht, helig⟩
      rw [hf] at this
      simp at this
  | cons t ts =>
      obtain ⟨hmem, hbest⟩ := pickBest_spec ts t
      have hmem' : pickBest t ts ∈ tasks.filter (eligibleTask now) := by
        rw [hf]
        exact hmem
      refine ⟨pickBest t ts, ?_, ?_, ?_, ?_⟩
      · simp only [fetch_next_task, hf]
      · exact List.mem_of_mem_filter hmem'
      · exact List.of_mem_filter hmem'
      · intro u hu helig
        have hu' : u ∈ t :: ts := by
          rw [← hf]
          exact List.mem_filter.mpr ⟨hu, helig⟩
        have hnb := hbest u hu'
        unfold ordBefore at hnb
        constructor
        · omega
        · omega

/-- C3 (witness): among two urgent pending tasks, an older high task and
an ineligible running task, the older urgent one is selected. -/
theorem C3_witness :
    ∃ t, fetch_next_task 10 schedulerWitnessTasks = some t ∧
      t ∈ schedulerWitnessTasks ∧ eligibleTask 10 t = true ∧
      ∀ u ∈ schedulerWitnessTasks, eligibleTask 10 u = true →
        u.priority.idx ≤ t.priority.idx ∧
        (u.priority.idx = t.priority.idx → t.created_at ≤ u.created_at) :=
  C3_theorem 10 schedulerWitnessTasks (by decide)

theorem merge_metadata_keys_mono {p : SandboxProfileL} {ov : Option Val} {merged : AList}
    (h : merge_metadata (some p) ov = Except.ok merged) :
    ∀ k, k ∈ keysOf p.to_metadata → k ∈ keysOf merged := by
  cases ov with
  | none =>
      simp only [merge_metadata] at h
      cases h
      exact fun k hk => hk
  | some v =>
      simp only [merge_metadata] at h
      by_cases ht : pyTruthy v = false
      · rw [if_pos ht] at h
        cases h
        exact fun k hk => hk
      · rw [if_neg ht] at h
        cases v with
        | dict o => exact merge_keys_mono _ _ _ h
        | str s => cases h; exact fun k hk => hk
        | num q => cases h; exact fun k hk => hk
        | bool b => cases h; exact fun k hk => hk
        | none => cases h; exact fun k hk => hk
        | list l => cases h; exact fun k hk => hk

/-- C4 (counterexample to the claim as stated): with the mandatory agent
`codex` but overrides `sandbox.enabled = false`, the spec's resolve+merge
logic makes `build_submission` fail instead of returning a payload, so
"fails only when the agent is not mandatory, otherwise returns a
submission" does not hold. -/
theorem C4_counterexample :
    build_submission "codex lint"
        (some [("agent", Val.str "codex"),
          ("sandbox", Val.dict [("enabled", Val.bool false)])]) =
      Except.error "Sandbox execution is mandatory for codex/claude agents" :=
  rfl

/-- C4 (amended, spec-modelled): `build_submission` fails with
`SandboxError` when the resolved agent is not one of the two mandatory
agents (or absent) or when the sandbox overrides are rejected by the
resolve+merge logic; otherwise it returns a submission whose `to_payload()`
is a mapping with exactly the keys `agent`, `command`, `sandbox` (carrying
the base profile's `profile`, `limits`, `network`, `working_dir` and
`capabilities` entries), and `metadata` (the caller metadata minus the
consumed `agent`/`sandbox` keys). -/
theorem C4_theorem (cmd : String) (md : AList) :
    (∀ a, normalise_agent (getKey md "agent") cmd = some a → a ∉ SUPPORTED_AGENTS →
      ∃ e, build_submission cmd (some md) = Except.error e) ∧
    (normalise_agent (getKey md "agent") cmd = Option.none →
      ∃ e, build_submission cmd (some md) = Except.error e) ∧
    (∀ a p merged, normalise_agent (getKey md "agent") cmd = some a →
      a ∈ SUPPORTED_AGENTS → profileFor a = some p →
      merge_metadata (some p) (getKey md "sandbox") = Except.ok merged →
      ∃ s, build_submission cmd (some md) = Except.ok s ∧
        s.to_payload = [("agent", Val.str a), ("command", Val.str cmd),
          ("sandbox", Val.dict merged),
          ("metadata", Val.dict (removeKey (removeKey md "agent") "sandbox"))] ∧
        keysOf s.to_payload = ["agent", "command", "sandbox", "metadata"] ∧
        keysOf p.to_metadata =
          ["enabled", "profile", "limits", "network", "working_dir", "capabilities"] ∧
        (∀ k, k ∈ keysOf p.to_metadata → k ∈ keysOf merged)) := by
  refine ⟨?_, ?_, ?_⟩
  · intro a hag hsup
    refine ⟨"Sandbox submission requires a codex/claude agent", ?_⟩
    simp only [build_submission, Option.getD, hag]
    rw [if_neg hsup]
  · intro hag
    refine ⟨"Sandbox submission requires a codex/claude agent", ?_⟩
    simp only [build_submission, Option.getD, hag]
  · intro a p merged hag hsup hp hm
    refine ⟨⟨a, cmd, merged, removeKey (removeKey md "agent") "sandbox"⟩, ?_, rfl, rfl, rfl,
      merge_metadata_keys_mono hm⟩
    simp only [build_submission, Option.getD, hag, hp, hm]
    rw [if_pos hsup]

/-- C4 (witness): the payload of `build_submission("codex lint",
{"agent": "codex", "approval_policy": "auto"})`, mirroring
`test_build_submission_payload`. -/
theorem C4_witness :
    ∃ s, build_submission "codex lint"
        (some [("agent", Val.str "codex"), ("approval_policy", Val.str "auto")]) =
      Except.ok s ∧
      s.to_payload = [("agent", Val.str "codex"), ("command", Val.str "codex lint"),
        ("sandbox", Val.dict codexProfile.to_metadata),
        ("metadata", Val.dict (removeKey (removeKey
          [("agent", Val.str "codex"), ("approval_policy", Val.str "auto")] "agent")
          "sandbox"))] ∧
      keysOf s.to_payload = ["agent", "command", "sandbox", "metadata"] ∧
      keysOf codexProfile.to_metadata =
        ["enabled", "profile", "limits", "network", "working_dir", "capabilities"] ∧
      (∀ k, k ∈ keysOf codexProfile.to_metadata → k ∈ keysOf codexProfile.to_metadata) :=
  ( C4_theorem "codex lint"
      [("agent", Val.str "codex"), ("approval_policy", Val.str "auto")]).2.2
    "codex" codexProfile codexProfile.to_metadata rfl (by decide) rfl rfl

theorem capItems_strList (A : List String) : capItems (Val.list (A.map Val.str)) = A := by
  simp only [capItems, List.map_map]
  have h : (pyStr ∘ Val.str) = id := funext fun s => rfl
  rw [h, List.map_id]

theorem getCapsStrs_to_metadata (p : SandboxProfileL) :
    getCapsStrs p.to_metadata = sortDedup p.capabilities := by
  have h : getKey p.to_metadata "capabilities" =
      some (Val.list ((sortDedup p.capabilities).map Val.str)) := rfl
  simp only [getCapsStrs, h, List.map_map]
  have h2 : (pyStr ∘ Val.str) = id := funext fun s => rfl
  rw [h2, List.map_id]

theorem getCapsStrs_setKey (m : AList) (S : List String) :
    getCapsStrs (setKey m "capabilities" (Val.list (S.map Val.str))) = S := by
  simp only [getCapsStrs, getKey_setKey_self, List.map_map]
  have h : (pyStr ∘ Val.str) = id := funext fun s => rfl
  rw [h, List.map_id]

/-- Merging a capability-list-only override never fails and performs the
set-union-then-sort update on the `"capabilities"` entry. -/
theorem merge_caps_step (m : AList) (A : List String) :
    recursive_merge m [("capabilities", Val.list (A.map Val.str))] =
      Except.ok (setKey m "capabilities"
        (Val.list ((sortDedup (getCapsStrs m ++ A)).map Val.str))) := by
  simp only [recursive_merge]
  rw [if_neg (by simp [isFalseVal])]
  split
  · rename_i d o hgd hvd
    cases hvd
  · rw [if_pos (by simp [isNoneVal])]
    rw [capItems_strList]

/-- C7 (counterexample to the claim as stated): merging `{"CAP_X"}` then
`{"CAP_X","CAP_Y"}` into the codex default profile base yields the sorted
union *with the base capability set* — `["CAP_CHOWN", "CAP_DAC_OVERRIDE",
"CAP_X", "CAP_Y"]`, not the claim's `["CAP_X", "CAP_Y"]`. -/
theorem C7_counterexample :
    (match (mergeCapsOverride codexProfile.to_metadata ["CAP_X"]).bind
        (fun m => mergeCapsOverride m ["CAP_X", "CAP_Y"]) with
     | Except.ok m => getKey m "capabilities"
     | Except.error _ => Option.none) =
      some (Val.list [Val.str "CAP_CHOWN", Val.str "CAP_DAC_OVERRIDE", Val.str "CAP_X",
        Val.str "CAP_Y"]) ∧
    [Val.str "CAP_CHOWN", Val.str "CAP_DAC_OVERRIDE", Val.str "CAP_X", Val.str "CAP_Y"] ≠
      [Val.str "CAP_X", Val.str "CAP_Y"] :=
  ⟨rfl, fun h => by have h2 := congrArg List.length h; simp at h2⟩

/-- C7 (amended): for every profile base (the two default profiles
included) and capability override lists A and B, merging A then B through
`_recursive_merge` always succeeds and stores as `"capabilities"` a
lexicographically sorted, deduplicated list whose elements are exactly the
union of the base capability set, A and B; the result is the same
whichever of A or B is merged first.  (The claim's particular output
`["CAP_X","CAP_Y"]` arises only over a base with no capabilities; over a
default profile base the base capabilities are part of the union.) -/
theorem C7_theorem (p : SandboxProfileL) (A B : List String) :
    ∃ mAB mBA : AList,
      (mergeCapsOverride p.to_metadata A).bind (fun m => mergeCapsOverride m B) =
        Except.ok mAB ∧
      (mergeCapsOverride p.to_metadata B).bind (fun m => mergeCapsOverride m A) =
        Except.ok mBA ∧
      getKey mAB "capabilities" = getKey mBA "capabilities" ∧
      ∃ caps : List String,
        getKey mAB "capabilities" = some (Val.list (caps.map Val.str)) ∧
        caps.Pairwise SLt ∧
        (∀ x, x ∈ caps ↔ x ∈ p.capabilities ∨ x ∈ A ∨ x ∈ B) := by
  have h1A := merge_caps_step p.to_metadata A
  have h1B := merge_caps_step p.to_metadata B
  rw [getCapsStrs_to_metadata] at h1A h1B
  have h2A := merge_caps_step
    (setKey p.to_metadata "capabilities"
      (Val.list ((sortDedup (sortDedup p.capabilities ++ B)).map Val.str))) A
  have h2B := merge_caps_step
    (setKey p.to_metadata "capabilities"
      (Val.list ((sortDedup (sortDedup p.capabilities ++ A)).map Val.str))) B
  rw [getCapsStrs_setKey] at h2A h2B
  have hmemAB : ∀ x, x ∈ sortDedup (sortDedup (sortDedup p.capabilities ++ A) ++ B) ↔
      x ∈ p.capabilities ∨ x ∈ A ∨ x ∈ B := by
    intro x
    rw [mem_sortDedup, List.mem_append, mem_sortDedup, List.mem_append, mem_sortDedup]
    tauto
  have hmemBA : ∀ x, x ∈ sortDedup (sortDedup (sortDedup p.capabilities ++ B) ++ A) ↔
      x ∈ p.capabilities ∨ x ∈ A ∨ x ∈ B := by
    intro x
    rw [mem_sortDedup, List.mem_append, mem_sortDedup, List.mem_append, mem_sortDedup]
    tauto
  have hcomm : sortDedup (sortDedup (sortDedup p.capabilities ++ A) ++ B) =
      sortDedup (sortDedup (sortDedup p.capabilities ++ B) ++ A) :=
    pairwise_eq_of_mem_iff (pairwise_sortDedup _) (pairwise_sortDedup _)
      (fun x => by rw [hmemAB, hmemBA])
  refine ⟨setKey
      (setKey p.to_metadata "capabilities"
        (Val.list ((sortDedup (sortDedup p.capabilities ++ A)).map Val.str)))
      "capabilities"
      (Val.list ((sortDedup (sortDedup (sortDedup p.capabilities ++ A) ++ B)).map Val.str)),
    setKey
      (setKey p.to_metadata "capabilities"
        (Val.list ((sortDedup (sortDedup p.capabilities ++ B)).map Val.str)))
      "capabilities"
      (Val.list ((sortDedup (sortDedup (sortDedup p.capabilities ++ B) ++ A)).map Val.str)),
    ?_, ?_, ?_, ?_⟩
  · rw [mergeCapsOverride, h1A]
    simp only [Except.bind]
    exact h2B
  · rw [mergeCapsOverride, h1B]
    simp only [Except.bind]
    exact h2A
  · rw [getKey_setKey_self, getKey_setKey_self, hcomm]
  · refine ⟨sortDedup (sortDedup (sortDedup p.capabilities ++ A) ++ B),
      by rw [getKey_setKey_self], pairwise_sortDedup _, hmemAB⟩

theorem compat_congr :
    ∀ (ov b1 b2 : AList), (∀ k, k ∈ keysOf ov → getKey b1 k = getKey b2 k) →
      compatList b1 ov = compatList b2 ov := by
  intro ov
  induction ov with
  | nil => intros; rfl
  | cons p rest ih =>
      obtain ⟨k, v⟩ := p
      intro b1 b2 h
      simp only [compatList]
      rw [h k (List.mem_cons_self k (keysOf rest)),
        ih b1 b2 (fun k' hk' => h k' (List.mem_cons.mpr (Or.inr hk')))]

theorem getCapsStrs_of_getKey {m : AList} {S : List String}
    (h : getKey m "capabilities" = some (Val.list (S.map Val.str))) : getCapsStrs m = S := by
  simp only [getCapsStrs, h, List.map_map]
  have h2 : (pyStr ∘ Val.str) = id := funext fun s => rfl
  rw [h2, List.map_id]

theorem not_contains_iff {l : List String} {k : String} :
    (!(l.contains k)) = true ↔ k ∉ l := by
  simp [List.contains]

theorem merge_step_enabled {m : AList} {k : String} {v : Val} {rest : List (String × Val)}
    (hen : (k = "enabled" && isFalseVal v) = true) :
    recursive_merge m ((k, v) :: rest) = Except.error SANDBOX_MANDATORY_MSG := by
  simp only [recursive_merge]
  rw [if_pos hen]

theorem merge_step_nondict {m : AList} {k : String} {v : Val} {rest : List (String × Val)}
    (hen : ¬(k = "enabled" && isFalseVal v) = true)
    (hvd : ∀ o, v ≠ Val.dict o) :
    recursive_merge m ((k, v) :: rest) =
      if k = "capabilities" && !isNoneVal v then
        recursive_merge (setKey m "capabilities"
          (Val.list ((sortDedup (getCapsStrs m ++ capItems v)).map Val.str))) rest
      else recursive_merge (setKey m k v) rest := by
  simp only [recursive_merge]
  rw [if_neg hen]
  split
  · exact absurd rfl (hvd _)
  · rfl

theorem merge_step_dict_ok {m d sub : AList} {k : String} {o rest : List (String × Val)}
    (hgk : getKey m k = some (Val.dict d))
    (hsub : recursive_merge d o = Except.ok sub) :
    recursive_merge m ((k, Val.dict o) :: rest) =
      recursive_merge (setKey m k (Val.dict sub)) rest := by
  simp only [recursive_merge]
  rw [if_neg (by simp [isFalseVal])]
  simp only [hgk, mergeDictVal, hsub]

theorem merge_step_dict_err {m d : AList} {k e : String} {o rest : List (String × Val)}
    (hgk : getKey m k = some (Val.dict d))
    (hsub : recursive_merge d o = Except.error e) :
    recursive_merge m ((k, Val.dict o) :: rest) = Except.error e := by
  simp only [recursive_merge]
  rw [if_neg (by simp [isFalseVal])]
  simp only [hgk, mergeDictVal, hsub]

theorem merge_idem_aux (n : Nat) :
    ∀ (ov m m₁ : AList), sizeOf ov = n → nodupKeysDeep ov = true →
      compatList m ov = true → recursive_merge m ov = Except.ok m₁ →
      recursive_merge m₁ ov = Except.ok m₁ := by
  induction n using Nat.strong_induction_on with
  | _ n ih =>
      intro ov m m₁ hsz hnd hcp hmg
      match ov with
      | [] =>
          simp only [recursive_merge] at hmg
          cases hmg
          simp only [recursive_merge]
      | (k, v) :: rest =>
          have hs1 : sizeOf ((k, v) :: rest) = 1 + (1 + sizeOf k + sizeOf v) + sizeOf rest := by
            simp
          have hszrest : sizeOf rest < n := by omega
          simp only [nodupKeysDeep, Bool.and_eq_true] at hnd
          obtain ⟨⟨hknotin, hndv⟩, hndrest⟩ := hnd
          have hkrest : k ∉ keysOf rest := not_contains_iff.mp hknotin
          simp only [compatList, Bool.and_eq_true] at hcp
          obtain ⟨hcphead, hcprest⟩ := hcp
          have hcongr : ∀ w : Val, compatList (setKey m k w) rest = true := by
            intro w
            rw [compat_congr rest (setKey m k w) m
              (fun k' hk' => getKey_setKey_ne m w (fun he => hkrest (he ▸ hk')))]
            exact hcprest
          by_cases hen : (k = "enabled" && isFalseVal v) = true
          · rw [merge_step_enabled hen] at hmg
            cases hmg
          · by_cases hvdict : ∃ o, v = Val.dict o
            · obtain ⟨o, rfl⟩ := hvdict
              have hs2 : sizeOf (Val.dict o) = 1 + sizeOf o := by simp
              have hszo : sizeOf o < n := by omega
              obtain ⟨d, hgd, hcpd⟩ :
                  ∃ d, getKey m k = some (Val.dict d) ∧ compatList d o = true := by
                simp only [compatHead] at hcphead
                cases hg : getKey m k with
                | none => rw [hg] at hcphead; cases hcphead
                | some w =>
                    cases w with
                    | dict d => exact ⟨d, rfl, by rw [hg] at hcphead; exact hcphead⟩
                    | str s => rw [hg] at hcphead; cases hcphead
                    | num q => rw [hg] at hcphead; cases hcphead
                    | bool b => rw [hg] at hcphead; cases hcphead
                    | none => rw [hg] at hcphead; cases hcphead
                    | list l => rw [hg] at hcphead; cases hcphead
              cases hsub : recursive_merge d o with
              | error e =>
                  rw [merge_step_dict_err hgd hsub] at hmg
                  cases hmg
              | ok sub =>
                  rw [merge_step_dict_ok hgd hsub] at hmg
                  have hndo : nodupKeysDeep o = true := hndv
                  have hsubidem : recursive_merge sub o = Except.ok sub :=
                    ih (sizeOf o) hszo o d sub rfl hndo hcpd hsub
                  have hgm1 : getKey m₁ k = some (Val.dict sub) := by
                    rw [merge_frame _ _ _ hmg k hkrest, getKey_setKey_self]
                  rw [merge_step_dict_ok hgm1 hsubidem, setKey_id hgm1]
                  exact ih (sizeOf rest) hszrest rest (setKey m k (Val.dict sub)) m₁ rfl
                    hndrest (hcongr _) hmg
            · have hvd : ∀ o, v ≠ Val.dict o := fun o ho => hvdict ⟨o, ho⟩
              rw [merge_step_nondict hen hvd] at hmg
              rw [merge_step_nondict hen hvd]
              by_cases hcap : (k = "capabilities" && !isNoneVal v) = true
              · rw [if_pos hcap] at hmg
                have hk : k = "capabilities" := by
                  have h2 := hcap
                  simp only [Bool.and_eq_true, decide_eq_true_eq] at h2
                  exact h2.1
                subst hk
                have hgm1 : getKey m₁ "capabilities" =
                    some (Val.list ((sortDedup (getCapsStrs m ++ capItems v)).map Val.str)) := by
                  rw [merge_frame _ _ _ hmg _ hkrest, getKey_setKey_self]
                have hcaps1 : getCapsStrs m₁ = sortDedup (getCapsStrs m ++ capItems v) :=
                  getCapsStrs_of_getKey hgm1
                have habsorb :
                    sortDedup (sortDedup (getCapsStrs m ++ capItems v) ++ capItems v) =
                      sortDedup (getCapsStrs m ++ capItems v) :=
                  sortDedup_append_absorb (pairwise_sortDedup _)
                    (fun x hx => mem_sortDedup.mpr (List.mem_append.mpr (Or.inr hx)))
                rw [if_pos hcap, hcaps1, habsorb, setKey_id hgm1]
                exact ih (sizeOf rest) hszrest rest
                  (setKey m "capabilities"
                    (Val.list ((sortDedup (getCapsStrs m ++ capItems v)).map Val.str)))
                  m₁ rfl hndrest (hcongr _) hmg
              · rw [if_neg hcap] at hmg
                have hgm1 : getKey m₁ k = some v := by
                  rw [merge_frame _ _ _ hmg k hkrest, getKey_setKey_self]
                rw [if_neg hcap, setKey_id hgm1]
                exact ih (sizeOf rest) hszrest rest (setKey m k v) m₁ rfl
                  hndrest (hcongr _) hmg

/-- C8 (amended): merge idempotence holds on deep-duplicate-free overrides
whose nested dicts all land on dicts of the base: if one `_merge_metadata`
pass over such overrides succeeds with result `m₁`, merging the same
overrides into `m₁` returns `m₁` unchanged. -/
theorem C8_theorem (profile : Option SandboxProfileL) (o m₁ : AList)
    (hnd : nodupKeysDeep o = true)
    (hcp : compatList (mergeBase profile) o = true)
    (h1 : merge_metadata profile (some (Val.dict o)) = Except.ok m₁) :
    recursive_merge m₁ o = Except.ok m₁ := by
  cases profile with
  | none =>
      cases o with
      | nil =>
          simp only [merge_metadata] at h1
          rw [if_pos (show pyTruthy (Val.dict []) = false from rfl)] at h1
          cases h1
          simp only [recursive_merge]
      | cons hd tl =>
          simp only [merge_metadata] at h1
          rw [if_neg (by simp [pyTruthy])] at h1
          exact merge_idem_aux (sizeOf (hd :: tl)) (hd :: tl) _ m₁ rfl hnd hcp h1
  | some p =>
      cases o with
      | nil =>
          simp only [merge_metadata] at h1
          rw [if_pos (show pyTruthy (Val.dict []) = false from rfl)] at h1
          cases h1
          simp only [recursive_merge]
      | cons hd tl =>
          simp only [merge_metadata] at h1
          rw [if_neg (by simp [pyTruthy])] at h1
          exact merge_idem_aux (sizeOf (hd :: tl)) (hd :: tl) _ m₁ rfl hnd hcp h1

/-- C8 (counterexample to the claim as stated): the overrides `c8badOv`
put a fresh nested dict under `"extra"`; the single merge into the codex
base succeeds, but a second merge of the same overrides into the result
re-sorts the inner capability list from `["B", "A"]` to `["A", "B"]`, so
merging twice is not the same as merging once. -/
theorem C8_counterexample :
    merge_metadata (some codexProfile) (some (Val.dict c8badOv)) =
        Except.ok c8onceMerged ∧
      recursive_merge c8onceMerged c8badOv ≠ Except.ok c8onceMerged := by
  refine ⟨rfl, fun h => ?_⟩
  exact absurd (congrArg capsInsideExtra h) (by decide)

/-- Witness: the codex base with the compatible overrides `c8goodOv`
satisfies every hypothesis of the amended idempotence theorem. -/
theorem C8_witness :
    nodupKeysDeep c8goodOv = true ∧
      compatList (mergeBase (some codexProfile)) c8goodOv = true ∧
      ∃ m₁, merge_metadata (some codexProfile) (some (Val.dict c8goodOv)) =
          Except.ok m₁ ∧
        recursive_merge m₁ c8goodOv = Except.ok m₁ :=
  ⟨rfl, rfl, _, rfl, C8_theorem (some codexProfile) c8goodOv _ rfl rfl rfl⟩

end PandarCoder
